import Mathlib

/-!
Verification model of the mdview self-contained rendering and archiving
subsystem (Go sources: `archive/graph.go`, `archive/scanner.go` /
`BuildGraph`, `archive/converter.go`, and the converter package's
`processLinkPath` / `processImagePath` / `ImageCache` rendering layer).

Strings are modelled as lists of characters (`GoStr`).  The Go standard
library's lexical path algorithms (`path/filepath.Clean`, `Join`, `Rel`,
`Dir`, `Base`, `Ext`, `FromSlash`) are embedded component-wise,
parameterised by the host separator convention (`OsConv`): `unixConv`
uses `/`, `windowsConv` treats both `/` and `\` as separators and emits
`\`, exactly as Go does on each platform.  Windows volume-name special
cases and Unicode case folding are outside the model; all inputs of
interest are plain rooted or relative ASCII paths.
-/

/-- Character-list model of a Go string. -/
abbrev GoStr := List Char

/-- Convert a Lean string literal to the model type. -/
def gs (s : String) : GoStr := s.toList

/-- The apostrophe character (U+0027). -/
def squote : Char := Char.ofNat 39

/-- Model of Go `strings.HasPrefix`. -/
def hasPrefix (s pre : GoStr) : Bool := pre.isPrefixOf s

/-- Model of Go `strings.HasSuffix`. -/
def hasSuffix (s suf : GoStr) : Bool := suf.isSuffixOf s

/-- Model of Go `strings.Contains` (substring search). -/
def containsSub (s sub : GoStr) : Bool :=
  match s with
  | [] => sub.isEmpty
  | _ :: t => sub.isPrefixOf s || containsSub t sub

/-- Model of Go `strings.TrimPrefix`. -/
def trimPrefix (s pre : GoStr) : GoStr :=
  if pre.isPrefixOf s then s.drop pre.length else s

/-- ASCII model of Go `strings.ToLower`. -/
def toLowerGo (s : GoStr) : GoStr := s.map Char.toLower

/-- Model of Go `strings.Split(s, c)[0]` for a one-character separator:
the prefix of `s` before the first occurrence of `c`. -/
def splitFirst (s : GoStr) (c : Char) : GoStr := s.takeWhile (fun x => x ≠ c)

/-- Model of Go `strings.ReplaceAll(s, c, rep)` for a one-character
pattern `c`. -/
def replaceAll (s : GoStr) (c : Char) (rep : GoStr) : GoStr :=
  (s.map (fun x => if x = c then rep else [x])).flatten

/-- Host path-separator convention (Go `GOOS` as it affects
`path/filepath`). -/
structure OsConv where
  sep : Char
deriving DecidableEq

/-- Unix convention: `/` is the only separator. -/
def unixConv : OsConv := ⟨'/'⟩

/-- Windows convention: `\` is the separator, `/` is also accepted
(Go `os.IsPathSeparator`). -/
def windowsConv : OsConv := ⟨'\\'⟩

/-- Model of Go `os.IsPathSeparator` under a convention. -/
def isSep (cv : OsConv) (c : Char) : Bool := c = '/' || c = cv.sep

/-- Split a path into its non-empty separator-delimited components. -/
def splitCompsAux (cv : OsConv) : GoStr → GoStr → List GoStr
  | [], acc => if acc.isEmpty then [] else [acc.reverse]
  | c :: rest, acc =>
    if isSep cv c then
      if acc.isEmpty then splitCompsAux cv rest []
      else acc.reverse :: splitCompsAux cv rest []
    else splitCompsAux cv rest (c :: acc)

/-- Non-empty components of a path. -/
def splitComps (cv : OsConv) (s : GoStr) : List GoStr := splitCompsAux cv s []

/-- The `.` path component. -/
def dotComp : GoStr := ['.']

/-- The `..` path component. -/
def dotdotComp : GoStr := ['.', '.']

/-- Stack pass of Go `path/filepath.Clean`: drop `.` components, let `..`
backtrack over a preceding real component, drop `..` at the root of a
rooted path, and keep leading `..` of an unrooted path.  `acc` is the
output stack in reverse order. -/
def cleanStack (rooted : Bool) : List GoStr → List GoStr → List GoStr
  | [], acc => acc.reverse
  | comp :: rest, acc =>
    if comp = dotComp then cleanStack rooted rest acc
    else if comp = dotdotComp then
      match acc with
      | a :: as =>
        if a = dotdotComp then cleanStack rooted rest (dotdotComp :: a :: as)
        else cleanStack rooted rest as
      | [] =>
        if rooted then cleanStack rooted rest []
        else cleanStack rooted rest [dotdotComp]
    else cleanStack rooted rest (comp :: acc)

/-- Join components with the convention's separator. -/
def joinComps (cv : OsConv) (comps : List GoStr) : GoStr :=
  List.intercalate [cv.sep] comps

/-- Model of Go `path/filepath.Clean` (lexical shortest-equivalent path;
output uses the convention's separator, as Go's `FromSlash` post-pass
does). -/
def goClean (cv : OsConv) (s : GoStr) : GoStr :=
  match s with
  | [] => dotComp
  | c :: _ =>
    let rooted := isSep cv c
    let comps := cleanStack rooted (splitComps cv s) []
    if rooted then cv.sep :: joinComps cv comps
    else if comps.isEmpty then dotComp
    else joinComps cv comps

/-- Model of Go `path/filepath.FromSlash`. -/
def goFromSlash (cv : OsConv) (s : GoStr) : GoStr :=
  s.map (fun c => if c = '/' then cv.sep else c)

/-- Model of Go `path/filepath.Join` on two elements: empty elements are
skipped, the rest are separator-joined and cleaned. -/
def goJoin (cv : OsConv) (a b : GoStr) : GoStr :=
  if a.isEmpty then (if b.isEmpty then [] else goClean cv b)
  else goClean cv (a ++ cv.sep :: b)

/-- Model of Go `path/filepath.Dir`: everything up to and including the
final separator, cleaned. -/
def goDir (cv : OsConv) (s : GoStr) : GoStr :=
  goClean cv ((s.reverse.dropWhile (fun c => !isSep cv c)).reverse)

/-- Model of Go `path/filepath.Base`: last element after stripping
trailing separators. -/
def goBase (cv : OsConv) (s : GoStr) : GoStr :=
  if s.isEmpty then dotComp
  else
    let s1 := (s.reverse.dropWhile (isSep cv)).reverse
    let name := (s1.reverse.takeWhile (fun c => !isSep cv c)).reverse
    if name.isEmpty then [cv.sep] else name

/-- Model of Go `path/filepath.Ext`: the suffix of the final element
starting at its last dot. -/
def goExt (cv : OsConv) (s : GoStr) : GoStr :=
  let seg := s.reverse.takeWhile (fun c => !isSep cv c)
  let beforeDot := seg.takeWhile (fun c => c ≠ '.')
  if beforeDot.length = seg.length then []
  else (seg.take (beforeDot.length + 1)).reverse

/-- Length of the common prefix of two component lists. -/
def commonPrefixLen : List GoStr → List GoStr → Nat
  | a :: as, b :: bs => if a = b then commonPrefixLen as bs + 1 else 0
  | _, _ => 0

/-- Model of Go `path/filepath.Rel(base, targ)`: both are cleaned, a
cleaned base of `.` contributes no components, rootedness must agree,
and a `..` left in the base after the common prefix is an error
(`none`).  Otherwise the result climbs with `..` and descends with the
target's remaining components, joined by the host separator. -/
def goRel (cv : OsConv) (base targ : GoStr) : Option GoStr :=
  let b := goClean cv base
  let t := goClean cv targ
  if b = t then some dotComp
  else
    let bRooted := match b with | c :: _ => isSep cv c | [] => false
    let tRooted := match t with | c :: _ => isSep cv c | [] => false
    if bRooted ≠ tRooted then none
    else
      let bc := if b = dotComp then [] else splitComps cv b
      let tc := splitComps cv t
      let k := commonPrefixLen bc tc
      if (bc.drop k).head? = some dotdotComp then none
      else some (joinComps cv (List.replicate (bc.length - k) dotdotComp ++ tc.drop k))

/-!
Converter package (`processLinkPath`, `processImagePath`,
`processCSSAssetPath`, MIME tables, the custom goldmark node renderers
and the preload cache boundary).  The goldmark parser and the raw-HTML /
CSS regexes are external collaborators: the render pass consumes the
already-recognised structure (an event list for the document tree, and
literal/attribute segments for raw HTML and CSS), invoking the same
resolution functions the Go code does per recognised reference.
-/

/-- A byte of file content. -/
abbrev GoByte := Nat

/-- Standard base64 alphabet character for a 6-bit value, as used by Go
`encoding/base64.StdEncoding`. -/
def b64char (n : Nat) : Char :=
  (gs "ABCDEFGHIJKLMNOPQRSTUVWXYZabcdefghijklmnopqrstuvwxyz0123456789+/").getD n 'A'

/-- Model of Go `base64.StdEncoding.EncodeToString`. -/
def base64encode : List GoByte → GoStr
  | [] => []
  | [b0] => [b64char (b0 / 4), b64char (b0 % 4 * 16), '=', '=']
  | [b0, b1] => [b64char (b0 / 4), b64char (b0 % 4 * 16 + b1 / 16), b64char (b1 % 16 * 4), '=']
  | b0 :: b1 :: b2 :: rest =>
    b64char (b0 / 4) :: b64char (b0 % 4 * 16 + b1 / 16) ::
      b64char (b1 % 16 * 4 + b2 / 64) :: b64char (b2 % 64) :: base64encode rest

/-- Model of `getMimeTypeFromExtension`: MIME type for common image
extensions, empty for unknown. -/
def getMimeTypeFromExtension (cv : OsConv) (path : GoStr) : GoStr :=
  let ext := toLowerGo (goExt cv path)
  if ext = gs ".png" then gs "image/png"
  else if ext = gs ".jpg" ∨ ext = gs ".jpeg" then gs "image/jpeg"
  else if ext = gs ".gif" then gs "image/gif"
  else if ext = gs ".svg" then gs "image/svg+xml"
  else if ext = gs ".webp" then gs "image/webp"
  else if ext = gs ".ico" then gs "image/x-icon"
  else if ext = gs ".bmp" then gs "image/bmp"
  else if ext = gs ".avif" then gs "image/avif"
  else []

/-- Model of `getCSSAssetMimeType`: MIME type for CSS-embeddable assets
(fonts and images), empty for unknown. -/
def getCSSAssetMimeType (cv : OsConv) (path : GoStr) : GoStr :=
  let ext := toLowerGo (goExt cv path)
  if ext = gs ".woff2" then gs "font/woff2"
  else if ext = gs ".woff" then gs "font/woff"
  else if ext = gs ".ttf" then gs "font/ttf"
  else if ext = gs ".otf" then gs "font/otf"
  else if ext = gs ".eot" then gs "application/vnd.ms-fontobject"
  else if ext = gs ".png" then gs "image/png"
  else if ext = gs ".jpg" ∨ ext = gs ".jpeg" then gs "image/jpeg"
  else if ext = gs ".gif" then gs "image/gif"
  else if ext = gs ".svg" then gs "image/svg+xml"
  else if ext = gs ".webp" then gs "image/webp"
  else if ext = gs ".ico" then gs "image/x-icon"
  else if ext = gs ".bmp" then gs "image/bmp"
  else if ext = gs ".avif" then gs "image/avif"
  else if ext = gs ".cur" then gs "image/x-icon"
  else []

/-- The local filesystem as the render pass sees it: a partial map from
absolute path to file bytes (`none` models a failing `os.ReadFile`). -/
structure ImgFS where
  readFile : GoStr → Option (List GoByte)

/-- Snapshot of the preload `ImageCache` contents at the moment `Get` is
called.  The Go cache is filled concurrently by `PreloadDirectory`
goroutines that read the same filesystem; a snapshot is coherent when
every cached entry agrees with a direct read (see `cacheCoherent`). -/
def CacheSnap : Type := GoStr → Option (List GoByte)

/-- The always-empty cache (preload disabled / `imageCache == nil`). -/
def emptyCache : CacheSnap := fun _ => none

/-- A cache snapshot is coherent with the filesystem when every entry it
holds is exactly what `os.ReadFile` returns for that path (true of the
Go cache, whose entries are stored only from successful reads of the
same unchanged filesystem). -/
def cacheCoherent (fs : ImgFS) (cache : CacheSnap) : Prop :=
  ∀ p d, cache p = some d → fs.readFile p = some d

/-- The `pathRenderer` configuration (fields of the Go struct; the
`imageCache` pointer is modelled by the `CacheSnap` passed alongside). -/
structure PathRenderer where
  baseDir : GoStr
  selfContained : Bool
  preload : Bool
  archiveMode : Bool
  archiveRootDir : GoStr
deriving DecidableEq

/-- The shared three-way local-path resolution used verbatim inside
`processLinkPath` (archive branch), `processImagePath` and
`processCSSAssetPath`: a `file:///` URL yields its local path, another
scheme (or a missing base directory) yields `none` (caller returns the
destination unchanged), and a bare path is joined to the base
directory. -/
def resolveLocal (cv : OsConv) (baseDir path : GoStr) : Option GoStr :=
  if hasPrefix path (gs "file:///") then
    some (goFromSlash cv (trimPrefix path (gs "file:///")))
  else if containsSub path (gs "://") then none
  else if !baseDir.isEmpty then some (goJoin cv baseDir path)
  else none

/-- The navigation-reference URL `javascript:mdviewLoadPage('key')`. -/
def mdviewLoadPageCall (key : GoStr) : GoStr :=
  gs "javascript:mdviewLoadPage(" ++ squote :: key ++ [squote, ')']

/-- The `file:///` fallback URL for a resolved absolute path. -/
def fileURLOf (absPath : GoStr) : GoStr :=
  gs "file:///" ++ replaceAll absPath '\\' (gs "/")

/-- Model of `pathRenderer.processLinkPath`: in archive mode with an
archive root configured, every `.md` destination (including `file:///`
URLs) is converted to a navigation reference keyed by the root-relative
forward-slash path; otherwise recognised schemes, anchors and data URIs
pass through, and bare paths become `file:///` URLs when a base
directory is configured. -/
def processLinkPath (cv : OsConv) (r : PathRenderer) (path : GoStr) : GoStr :=
  if r.archiveMode && !r.archiveRootDir.isEmpty && hasSuffix (toLowerGo path) (gs ".md") then
    match resolveLocal cv r.baseDir path with
    | none => path
    | some a0 =>
      let absPath := goClean cv a0
      let relPath := (goRel cv r.archiveRootDir absPath).getD (goBase cv absPath)
      mdviewLoadPageCall (replaceAll relPath '\\' (gs "/"))
  else if containsSub path (gs "://") || hasPrefix path (gs "#") ||
      hasPrefix path (gs "data:") || hasPrefix path (gs "mailto:") ||
      hasPrefix path (gs "tel:") || hasPrefix path (gs "javascript:") then
    path
  else if r.baseDir.isEmpty then path
  else
    let absPath := goClean cv (goJoin cv r.baseDir path)
    fileURLOf absPath

/-- Model of `pathRenderer.processImagePath`: non-embeddable references
pass through; resolvable local paths are embedded as base64 data URIs in
self-contained mode (consulting the preload cache snapshot first when
preloading), falling back to a `file:///` URL when the extension is
unknown, the read fails, or self-contained mode is off.  The
fire-and-forget `PreloadDirectory` trigger and the post-read `Set` are
cache side effects invisible in the returned string. -/
def processImagePath (cv : OsConv) (fs : ImgFS) (cache : CacheSnap)
    (r : PathRenderer) (path : GoStr) : GoStr :=
  if hasPrefix path (gs "#") || hasPrefix path (gs "data:") ||
      hasPrefix path (gs "mailto:") || hasPrefix path (gs "tel:") ||
      hasPrefix path (gs "http://") || hasPrefix path (gs "https://") then
    path
  else
    match resolveLocal cv r.baseDir path with
    | none => path
    | some a0 =>
      let absPath := goClean cv a0
      if r.selfContained then
        let mimeType := getMimeTypeFromExtension cv absPath
        if !mimeType.isEmpty then
          let cached := if r.preload then cache absPath else none
          match (match cached with
                 | some d => some d
                 | none => fs.readFile absPath) with
          | some d => gs "data:" ++ mimeType ++ gs ";base64," ++ base64encode d
          | none => fileURLOf absPath
        else fileURLOf absPath
      else fileURLOf absPath

/-- Model of `pathRenderer.processCSSAssetPath` (self-contained raw-HTML
CSS `url()` handling). -/
def processCSSAssetPath (cv : OsConv) (fs : ImgFS) (r : PathRenderer)
    (path : GoStr) : GoStr :=
  if hasPrefix path (gs "data:") || hasPrefix path (gs "#") ||
      hasPrefix path (gs "http://") || hasPrefix path (gs "https://") then
    path
  else
    match resolveLocal cv r.baseDir path with
    | none => path
    | some a0 =>
      let absPath := goClean cv a0
      let mimeType := getCSSAssetMimeType cv absPath
      if mimeType.isEmpty then path
      else
        match fs.readFile absPath with
        | none => path
        | some d => gs "data:" ++ mimeType ++ gs ";base64," ++ base64encode d

/-- Model of Go `html.EscapeString` (escapes `&`, `'`, `<`, `>`, `"`). -/
def escapeHTML (s : GoStr) : GoStr :=
  (s.map (fun c =>
    if c = '&' then gs "&amp;"
    else if c = squote then gs "&#39;"
    else if c = '<' then gs "&lt;"
    else if c = '>' then gs "&gt;"
    else if c = '"' then gs "&#34;"
    else [c])).flatten

/-- One regex-recognised piece of a raw HTML block, as found by the Go
patterns `srcPattern`, `anchorNoTargetPattern` and `cssURLPattern`
(regex matching itself is the external part; each match carries its
prefix/suffix literals and the captured path). -/
inductive RawSeg
  /-- Literal text untouched by the three patterns. -/
  | lit (s : GoStr)
  /-- A `src="path"` attribute match: `pre` is `src="`, `suf` the
  closing quote. -/
  | srcAttr (pre path suf : GoStr)
  /-- An `<a ... href="path" ...>` match: `pre` is the text up to and
  including `href="`, `mid` the text between the closing quote and the
  final `>`. -/
  | anchorHref (pre path mid : GoStr)
  /-- A CSS `url(path)` match inside the block. -/
  | cssUrl (pre path suf : GoStr)
deriving DecidableEq

/-- Model of `pathRenderer.processRawHTMLContent` on the recognised
segments: image sources and CSS assets are resolved or embedded, anchor
hrefs are resolved and external ones gain `target="_blank"`; CSS `url()`
references are rewritten only in self-contained mode. -/
def processRawHTMLContent (cv : OsConv) (fs : ImgFS) (cache : CacheSnap)
    (r : PathRenderer) (segs : List RawSeg) : GoStr :=
  (segs.map (fun seg =>
    match seg with
    | .lit s => s
    | .srcAttr pre path suf => pre ++ processImagePath cv fs cache r path ++ suf
    | .anchorHref pre path mid =>
      let processedPath := processLinkPath cv r path
      if !hasPrefix processedPath (gs "javascript:") &&
          !hasPrefix processedPath (gs "#") &&
          !containsSub mid (gs "target=") then
        pre ++ processedPath ++ mid ++ gs " target=\"_blank\"" ++ gs ">"
      else pre ++ processedPath ++ mid ++ gs ">"
    | .cssUrl pre path suf =>
      if r.selfContained then pre ++ processCSSAssetPath cv fs r path ++ suf
      else pre ++ path ++ suf)).flatten

/-- A node-visit event of the streaming render pass: the goldmark tree
walk is the external collaborator, the custom renderers for image, link
and raw-HTML nodes are modelled here, and every other node kind is
rendered by the default HTML renderer whose output is carried as
`defaultHTML`. -/
inductive MdEvent
  | defaultHTML (s : GoStr)
  | image (dest : GoStr) (alt : GoStr) (title : Option GoStr)
  | linkOpen (dest : GoStr) (title : Option GoStr)
  | linkClose
  | rawHTML (segs : List RawSeg)
deriving DecidableEq

/-- Model of `pathRenderer.renderImage` / `renderLink` / `renderRawHTML`
for one event. -/
def renderEvent (cv : OsConv) (fs : ImgFS) (cache : CacheSnap)
    (r : PathRenderer) : MdEvent → GoStr
  | .defaultHTML s => s
  | .image dest alt title =>
    let finalDest := processImagePath cv fs cache r dest
    gs "<img src=\"" ++ escapeHTML finalDest ++ gs "\"" ++
      gs " alt=\"" ++ alt ++ gs "\"" ++
      (match title with
       | some t => gs " title=\"" ++ escapeHTML t ++ gs "\""
       | none => []) ++ gs " />"
  | .linkOpen dest title =>
    let finalDest := processLinkPath cv r dest
    gs "<a href=\"" ++ escapeHTML finalDest ++ gs "\"" ++
      (if !hasPrefix finalDest (gs "javascript:") && !hasPrefix finalDest (gs "#") then
        gs " target=\"_blank\""
      else []) ++
      (match title with
       | some t => gs " title=\"" ++ escapeHTML t ++ gs "\""
       | none => []) ++ gs ">"
  | .linkClose => gs "</a>"
  | .rawHTML segs => processRawHTMLContent cv fs cache r segs

/-- One regex-recognised piece of the template CSS (`cssURLPattern`). -/
inductive CssSeg
  | lit (s : GoStr)
  | url (pre path suf : GoStr)
deriving DecidableEq

/-- The template collaborator's named fragments (`templates.Template`),
with the CSS pre-tokenised by the `url()` pattern. -/
structure GoTemplate where
  html : GoStr
  css : List CssSeg
  js : GoStr

/-- The converter's settings (`converter.Converter` fields). -/
structure ConverterCfg where
  baseDir : GoStr
  selfContained : Bool
  preload : Bool
  archiveMode : Bool
  archiveRootDir : GoStr
  title : GoStr
deriving DecidableEq

/-- The `pathRenderer` built from the converter settings
(`createMarkdown`). -/
def rendererOf (c : ConverterCfg) : PathRenderer :=
  ⟨c.baseDir, c.selfContained, c.preload, c.archiveMode, c.archiveRootDir⟩

/-- Model of `Converter.embedCSSAssets` on the recognised `url()`
segments (direct reads only; the preload cache is never consulted
here). -/
def embedCSSAssets (cv : OsConv) (fs : ImgFS) (c : ConverterCfg)
    (css : List CssSeg) : GoStr :=
  (css.map (fun seg =>
    match seg with
    | .lit s => s
    | .url pre path suf =>
      if hasPrefix path (gs "data:") || hasPrefix path (gs "#") ||
          hasPrefix path (gs "http://") || hasPrefix path (gs "https://") then
        pre ++ path ++ suf
      else
        let a0 := if hasPrefix path (gs "file:///") then
            some (goFromSlash cv (trimPrefix path (gs "file:///")))
          else if containsSub path (gs "://") then none
          else some (goJoin cv c.baseDir path)
        match a0 with
        | none => pre ++ path ++ suf
        | some a =>
          let absPath := goClean cv a
          let mimeType := getCSSAssetMimeType cv absPath
          if mimeType.isEmpty then pre ++ path ++ suf
          else
            match fs.readFile absPath with
            | none => pre ++ path ++ suf
            | some d =>
              pre ++ gs "data:" ++ mimeType ++ gs ";base64," ++ base64encode d ++ suf)).flatten

/-- Plain CSS text of the template when no embedding runs. -/
def rawCSS (css : List CssSeg) : GoStr :=
  (css.map (fun seg =>
    match seg with
    | .lit s => s
    | .url pre path suf => pre ++ path ++ suf)).flatten

/-- One left-to-right pass of the `titlePattern` regex replacement
(`<title>[^<]*</title>` → the new tag), with fuel bounded by the text
length. -/
def replaceTitleAux (newTag : GoStr) : Nat → GoStr → GoStr
  | 0, s => s
  | _ + 1, [] => []
  | fuel + 1, c :: rest =>
    if hasPrefix (c :: rest) (gs "<title>") then
      let afterOpen := (c :: rest).drop 7
      let body := afterOpen.takeWhile (fun x => x ≠ '<')
      let after := afterOpen.drop body.length
      if hasPrefix after (gs "</title>") then
        newTag ++ replaceTitleAux newTag fuel (after.drop 8)
      else c :: replaceTitleAux newTag fuel rest
    else c :: replaceTitleAux newTag fuel rest

/-- Model of `titlePattern.ReplaceAllString(html, "<title>t</title>")`. -/
def replaceTitleTag (html t : GoStr) : GoStr :=
  replaceTitleAux (gs "<title>" ++ escapeHTML t ++ gs "</title>") html.length html

/-- Model of `Converter.writeHeader`: doctype preamble, template HTML
(with the title substituted when a custom title is set), the style block
(CSS assets embedded in self-contained mode with a base directory), and
the opening body/article markup. -/
def writeHeader (cv : OsConv) (fs : ImgFS) (c : ConverterCfg)
    (tmpl : GoTemplate) : GoStr :=
  gs "<!DOCTYPE html>\n<html lang=\"en\">\n<head>\n<meta charset=\"UTF-8\">\n<meta name=\"viewport\" content=\"width=device-width, initial-scale=1.0\">\n" ++
  (if !tmpl.html.isEmpty then
    (if !c.title.isEmpty then replaceTitleTag tmpl.html c.title else tmpl.html) ++ gs "\n"
  else []) ++
  (if !(rawCSS tmpl.css).isEmpty then
    gs "<style>\n" ++
    (if c.selfContained && !c.baseDir.isEmpty then embedCSSAssets cv fs c tmpl.css
     else rawCSS tmpl.css) ++
    gs "\n</style>\n"
  else []) ++
  gs "</head>\n<body>\n<article class=\"markdown-body\">\n"

/-- Model of `Converter.writeFooter`: closing article markup, the
template's script block, and the closing body/html tags. -/
def writeFooter (tmpl : GoTemplate) : GoStr :=
  gs "\n</article>\n" ++
  (if !tmpl.js.isEmpty then gs "<script>\n" ++ tmpl.js ++ gs "\n</script>\n" else []) ++
  gs "</body>\n</html>\n"

/-- Model of `Converter.ConvertWithSize` after the external parse:
header, the rendered node events in order, footer. -/
def convertDocument (cv : OsConv) (fs : ImgFS) (cache : CacheSnap)
    (c : ConverterCfg) (tmpl : GoTemplate) (events : List MdEvent) : GoStr :=
  writeHeader cv fs c tmpl ++
  (events.map (renderEvent cv fs cache (rendererOf c))).flatten ++
  writeFooter tmpl

/-!
Archive package: link scanner (`archive/scanner.go`), dependency graph
(`archive/graph.go`), breadth-first builder (`BuildGraph`) and packager
(`archive/converter.go`).  Markdown parsing and the `href` regex are
external: a file's content is carried as the pair of destination lists
they produce (structured link destinations, raw-HTML hrefs).
-/

/-- Model of `linkCollector.processLink`: returns the absolute path of a
local `.md` target, or `[]` (Go `""`) for destinations that are empty,
anchors, external schemes, or not markdown.  `file:///` URLs are handled
before the general scheme check; fragment and query are stripped before
the `.md` suffix test and resolution. -/
def processLink (cv : OsConv) (baseDir href : GoStr) : GoStr :=
  if href.isEmpty then []
  else if hasPrefix href (gs "#") then []
  else if hasPrefix href (gs "file:///") then
    let h1 := goFromSlash cv (trimPrefix href (gs "file:///"))
    let h2 := splitFirst h1 '#'
    let h3 := splitFirst h2 '?'
    if !hasSuffix (toLowerGo h3) (gs ".md") then []
    else goClean cv h3
  else if hasPrefix href (gs "http://") || hasPrefix href (gs "https://") ||
      hasPrefix href (gs "mailto:") || hasPrefix href (gs "tel:") ||
      hasPrefix href (gs "ftp://") || containsSub href (gs "://") then
    []
  else
    let h1 := splitFirst href '#'
    let h2 := splitFirst h1 '?'
    if !hasSuffix (toLowerGo h2) (gs ".md") then []
    else goClean cv (goJoin cv baseDir h2)

/-- Model of `deduplicateLinks`: first occurrence of each path is kept
(the `seen` set always holds exactly the collected results). -/
def deduplicateLinks (links : List GoStr) : List GoStr :=
  links.foldl (fun res link => if res.contains link then res else res ++ [link]) []

/-- The two destination lists the external parsers extract from one
markdown file: goldmark AST link destinations, then `href` regex
captures from the raw bytes. -/
structure MdContent where
  dests : List GoStr
  htmlHrefs : List GoStr
deriving DecidableEq

/-- Model of `ScanMarkdownLinks`: process the structured destinations,
append the raw-HTML matches (`scanHTMLLinks`), drop non-markdown
results, deduplicate.  (The Go function's error result is always `nil`.) -/
def ScanMarkdownLinks (cv : OsConv) (content : MdContent) (baseDir : GoStr) : List GoStr :=
  let collected := (content.dests.map (processLink cv baseDir)).filter (fun p => !p.isEmpty)
  let htmlLinks := (content.htmlHrefs.map (processLink cv baseDir)).filter (fun p => !p.isEmpty)
  deduplicateLinks (collected ++ htmlLinks)

/-- Model of `archive.Node`. -/
structure GoNode where
  path : GoStr
  relativePath : GoStr
  links : List GoStr
  depth : Nat
deriving DecidableEq

/-- Model of `archive.Graph` (the `Nodes` map as an association list in
insertion order, keyed by `path`). -/
structure GoGraph where
  root : GoStr
  nodes : List GoNode
  count : Nat
deriving DecidableEq

/-- Model of `Graph.AddNode`: return the existing node unchanged, or
insert a fresh node with empty links and bump the count. -/
def GoGraph.AddNode (g : GoGraph) (path relativePath : GoStr) (depth : Nat) :
    GoGraph × GoNode :=
  match g.nodes.find? (fun n => n.path == path) with
  | some n => (g, n)
  | none =>
    let n : GoNode := ⟨path, relativePath, [], depth⟩
    (⟨g.root, g.nodes ++ [n], g.count + 1⟩, n)

/-- The `node.Links = links` assignment through the pointer returned by
`AddNode`. -/
def GoGraph.setLinks (g : GoGraph) (path : GoStr) (links : List GoStr) : GoGraph :=
  ⟨g.root, g.nodes.map (fun n => if n.path == path then ⟨n.path, n.relativePath, links, n.depth⟩ else n), g.count⟩

/-- The filesystem as `BuildGraph` sees it: which paths `os.Stat` finds,
and the parsed content of the paths `os.ReadFile` can read. -/
structure GoFS where
  statList : List GoStr
  files : List (GoStr × MdContent)

/-- `os.Stat` succeeds (the `os.IsNotExist` test fails). -/
def GoFS.statOk (fs : GoFS) (p : GoStr) : Bool := fs.statList.contains p

/-- `os.ReadFile` result, already parsed into destination lists. -/
def GoFS.read (fs : GoFS) (p : GoStr) : Option MdContent :=
  (fs.files.find? (fun e => e.1 == p)).map (fun e => e.2)

/-- The scanned link list of a readable file (`ReadFile` +
`ScanMarkdownLinks` with the file's directory as base). -/
def linksOf (cv : OsConv) (fs : GoFS) (p : GoStr) : Option (List GoStr) :=
  (fs.read p).map (fun c => ScanMarkdownLinks cv c (goDir cv p))

/-- Warnings `BuildGraph` reports on stderr. -/
inductive GoWarning
  | readFailed (path : GoStr)
  | linkMissing (path : GoStr)
  | truncated (maxPages : Int) (excluded : Nat)
deriving DecidableEq

/-- Mutable state of the BFS loop. -/
structure BfsState where
  graph : GoGraph
  queue : List (GoStr × Nat)
  visited : List GoStr
  warnings : List GoWarning
deriving DecidableEq

/-- The inner `for _, link := range links` loop: enqueue each unvisited
link while the graph is still under the page limit, warning and skipping
links whose target file does not exist. -/
def enqueueLinks (fs : GoFS) (maxPages : Int) (count : Nat) (depth : Nat)
    (links : List GoStr) (vqw : List GoStr × List (GoStr × Nat) × List GoWarning) :
    List GoStr × List (GoStr × Nat) × List GoWarning :=
  links.foldl (fun vqw link =>
    if !vqw.1.contains link && decide ((count : Int) < maxPages) then
      if !fs.statOk link then (vqw.1, vqw.2.1, vqw.2.2 ++ [.linkMissing link])
      else (vqw.1 ++ [link], vqw.2.1 ++ [(link, depth + 1)], vqw.2.2)
    else vqw) vqw

/-- The body of one dequeue: warn and continue on read failure,
otherwise add the node (relative path via `filepath.Rel`, falling back
to the absolute path on error), record its scanned links, and enqueue
the unvisited ones.  (`ScanMarkdownLinks` never returns an error, so the
scan-failure warning branch of the Go code is dead.) -/
def bfsProcess (cv : OsConv) (fs : GoFS) (rootDir : GoStr) (maxPages : Int)
    (currentPath : GoStr) (currentDepth : Nat) (rest : List (GoStr × Nat))
    (s : BfsState) : BfsState :=
  match fs.read currentPath with
  | none => ⟨s.graph, rest, s.visited, s.warnings ++ [.readFailed currentPath]⟩
  | some content =>
    let relPath := (goRel cv rootDir currentPath).getD currentPath
    let g1 := (s.graph.AddNode currentPath relPath currentDepth).1
    let links := ScanMarkdownLinks cv content (goDir cv currentPath)
    let g2 := g1.setLinks currentPath links
    let vqw := enqueueLinks fs maxPages g2.count currentDepth links (s.visited, rest, s.warnings)
    ⟨g2, vqw.2.1, vqw.1, vqw.2.2⟩

/-- One iteration of the BFS loop (no-op on an empty queue). -/
def bfsStep (cv : OsConv) (fs : GoFS) (rootDir : GoStr) (maxPages : Int)
    (s : BfsState) : BfsState :=
  match s.queue with
  | [] => s
  | (currentPath, currentDepth) :: rest =>
    bfsProcess cv fs rootDir maxPages currentPath currentDepth rest s

/-- The `for len(queue) > 0 && graph.Count < maxPages` guard. -/
def bfsGuard (maxPages : Int) (s : BfsState) : Bool :=
  !s.queue.isEmpty && decide ((s.graph.count : Int) < maxPages)

/-- The fuelled BFS loop; `buildGraphFuel` below shows the canonical
fuel always suffices. -/
def bfsLoop (cv : OsConv) (fs : GoFS) (rootDir : GoStr) (maxPages : Int) :
    Nat → BfsState → BfsState
  | 0, s => s
  | fuel + 1, s =>
    if bfsGuard maxPages s then bfsLoop cv fs rootDir maxPages fuel (bfsStep cv fs rootDir maxPages s)
    else s

/-- The fuel `BuildGraph` is run with: one iteration per existing file
plus the root (each iteration dequeues, and every enqueue consumes an
unvisited existing path). -/
def buildGraphFuel (fs : GoFS) : Nat := fs.statList.length + 1

/-- The initial BFS state: empty graph rooted at `rootPath`, the root
queued at depth 0 and marked visited. -/
def initState (rootPath : GoStr) : BfsState :=
  ⟨⟨rootPath, [], 0⟩, [(rootPath, 0)], [rootPath], []⟩

/-- Result of `BuildGraph`, with the warning trace and the queue left
over at loop exit (whose length is the reported excluded count). -/
structure BuildResult where
  graph : GoGraph
  warnings : List GoWarning
  leftover : List (GoStr × Nat)
deriving DecidableEq

/-- Model of `archive.BuildGraph`: validate the root exists, run the BFS
to completion, and report a truncation warning when the loop stopped
with a non-empty queue. -/
def BuildGraph (cv : OsConv) (fs : GoFS) (rootPath : GoStr) (maxPages : Int) :
    Except GoStr BuildResult :=
  if !fs.statOk rootPath then .error (gs "root file does not exist: " ++ rootPath)
  else
    let rootDir := goDir cv rootPath
    let final := bfsLoop cv fs rootDir maxPages (buildGraphFuel fs) (initState rootPath)
    let warnings :=
      if !final.queue.isEmpty then final.warnings ++ [.truncated maxPages final.queue.length]
      else final.warnings
    .ok ⟨final.graph, warnings, final.queue⟩

/-- Depth-ordered insertion used to model `Graph.OrderedNodes` (a
depth-nondecreasing rearrangement of the node list; Go sorts the map's
nodes by depth with a bubble sort). -/
def insertByDepth (n : GoNode) : List GoNode → List GoNode
  | [] => [n]
  | m :: rest => if m.depth ≤ n.depth then m :: insertByDepth n rest else n :: m :: rest

/-- Model of `Graph.OrderedNodes`. -/
def GoGraph.OrderedNodes (g : GoGraph) : List GoNode :=
  g.nodes.foldr insertByDepth []

/-- A destination-filesystem action performed by the packager. -/
inductive FsAction
  | writeFile (path : GoStr) (content : GoStr)
deriving DecidableEq

/-- The packager's collaborators: the per-page converter run (the
document renderer above, driven over the real filesystem) and the gzip
compressor (`compress/gzip`; fallible). -/
structure ArchiveEnv where
  convertPage : GoStr → Except GoStr GoStr
  compress : GoStr → Except GoStr (List GoByte)
  pakoJS : GoStr
  navigationJS : GoStr
  overlayCSS : GoStr

/-- JavaScript string-literal escaping of an archive key
(`strings.ReplaceAll(relPath, "\\", "\\\\")` then the quote escape). -/
def jsEscapePath (p : GoStr) : GoStr :=
  replaceAll (replaceAll p '\\' (gs "\\\\")) '"' (gs "\\\"")

/-- The `pages` object body of `generateArchiveResources` (comma-joined
`"key": "payload"` entries; Go iterates the map with a first-entry
flag). -/
def pagesBlock (archiveData : List (GoStr × GoStr)) : GoStr :=
  List.intercalate (gs ",\n")
    (archiveData.map (fun e => gs "    \"" ++ jsEscapePath e.1 ++ gs "\": \"" ++ e.2 ++ gs "\""))

/-- Model of `generateArchiveResources`: overlay markup, overlay CSS,
pako, the `window.mdviewArchive` object (pages map plus the
slash-normalised root), and the navigation script. -/
def generateArchiveResources (env : ArchiveEnv) (g : GoGraph)
    (archiveData : List (GoStr × GoStr)) : GoStr :=
  gs "\n<!-- mdview archive overlay -->\n<div id=\"mdview-overlay\" class=\"mdview-overlay\">\n  <button class=\"mdview-close-btn\" aria-label=\"Close\">✕ Close</button>\n  <div class=\"mdview-overlay-content\">\n    <article class=\"markdown-body\" id=\"mdview-overlay-body\"></article>\n  </div>\n</div>\n\n" ++
  gs "<style>\n" ++ env.overlayCSS ++ gs "\n</style>\n\n" ++
  gs "<script>\n" ++ env.pakoJS ++ gs "\n</script>\n\n" ++
  gs "<script>\n// mdview archive data - compressed pages\nwindow.mdviewArchive = \x7b\n  pages: \x7b\n" ++
  pagesBlock archiveData ++
  gs "\n  \x7d,\n  root: \"" ++
  replaceAll (replaceAll g.root '\\' (gs "/")) '"' (gs "\\\"") ++
  gs "\"\n\x7d;\n</script>\n\n" ++
  gs "<script>\n" ++ env.navigationJS ++ gs "\n</script>\n"

/-- Last index at which `sub` starts inside `s` (Go `strings.LastIndex`,
`none` for −1). -/
def lastIndexOf (s sub : GoStr) : Option Nat :=
  ((List.range (s.length + 1)).filter (fun i => sub.isPrefixOf (s.drop i))).getLast?

/-- Model of `injectBeforeClosingTag`. -/
def injectBeforeClosingTag (html closingTag content : GoStr) : GoStr :=
  match lastIndexOf html closingTag with
  | none => html ++ content
  | some i => html.take i ++ content ++ html.drop i

/-- The per-node loop of `ConvertToArchive`: convert, compress, base64
encode, store under `node.RelativePath`; the first conversion or
compression failure aborts with the wrapped error. -/
def convertPagesLoop (env : ArchiveEnv) :
    List GoNode → List (GoStr × GoStr) → Except GoStr (List (GoStr × GoStr))
  | [], acc => .ok acc
  | node :: rest, acc =>
    match env.convertPage node.path with
    | .error e => .error (gs "failed to convert " ++ node.path ++ gs ": " ++ e)
    | .ok htmlContent =>
      match env.compress htmlContent with
      | .error e => .error (gs "failed to compress " ++ node.path ++ gs ": " ++ e)
      | .ok compressed =>
        convertPagesLoop env rest (acc ++ [(node.relativePath, base64encode compressed)])

/-- Model of `ArchiveConverter.ConvertToArchive`: returns the Go error
result together with the trace of destination writes (the Go code's only
write, `os.WriteFile(outputPath, finalHTML)`, is the final statement of
the success path). -/
def ConvertToArchive (env : ArchiveEnv) (g : GoGraph) (outputPath : GoStr) :
    Except GoStr Unit × List FsAction :=
  match convertPagesLoop env g.OrderedNodes [] with
  | .error e => (.error e, [])
  | .ok archiveData =>
    match env.convertPage g.root with
    | .error e => (.error (gs "failed to convert root page: " ++ e), [])
    | .ok rootHTML =>
      let resources := generateArchiveResources env g archiveData
      let finalHTML := injectBeforeClosingTag rootHTML (gs "</body>") resources
      (.ok (), [.writeFile outputPath finalHTML])

/-!  Helper lemmas about the string model.  -/

/-- `containsSub` is substring occurrence. -/
theorem containsSub_iff {s sub : GoStr} : containsSub s sub = true ↔ sub <:+: s := by
  induction s with
  | nil =>
    simp [containsSub, List.isEmpty_iff]
  | cons c t ih =>
    simp [containsSub, ih, List.infix_cons_iff, List.isPrefixOf_iff_prefix]

/-- A `file:///` destination always contains the scheme marker `://`. -/
theorem fileURL_contains_scheme {path : GoStr}
    (h : hasPrefix path (gs "file:///") = true) : containsSub path (gs "://") = true := by
  rw [containsSub_iff]
  rw [hasPrefix, List.isPrefixOf_iff_prefix] at h
  exact List.IsInfix.trans (by decide) h.isInfix

/-- An `http://` destination always contains the scheme marker `://`. -/
theorem httpURL_contains_scheme {path : GoStr}
    (h : hasPrefix path (gs "http://") = true) : containsSub path (gs "://") = true := by
  rw [containsSub_iff]
  rw [hasPrefix, List.isPrefixOf_iff_prefix] at h
  exact List.IsInfix.trans (by decide) h.isInfix

/-- C9: with no base directory configured, a bare relative destination
(no URL scheme, not an anchor, not a data URI) is returned unchanged by
both resolution paths — links are not rewritten to `file://` URLs and
images are neither rewritten nor embedded — for every combination of the
self-contained, preload and archive flags. -/
theorem noBaseDir_passthrough (cv : OsConv) (fs : ImgFS) (cache : CacheSnap)
    (r : PathRenderer) (path : GoStr)
    (hbase : r.baseDir = [])
    (hscheme : containsSub path (gs "://") = false)
    (hanchor : hasPrefix path (gs "#") = false)
    (hdata : hasPrefix path (gs "data:") = false)
    (hmailto : hasPrefix path (gs "mailto:") = false)
    (htel : hasPrefix path (gs "tel:") = false)
    (hjs : hasPrefix path (gs "javascript:") = false) :
    processLinkPath cv r path = path ∧ processImagePath cv fs cache r path = path := by
  have hfile : hasPrefix path (gs "file:///") = false := by
    by_contra h
    rw [Bool.not_eq_false] at h
    rw [fileURL_contains_scheme h] at hscheme
    exact absurd hscheme (by decide)
  have hres : resolveLocal cv r.baseDir path = none := by
    rw [resolveLocal, hfile, hscheme, hbase]
    simp
  constructor
  · rw [processLinkPath]
    by_cases harch : (r.archiveMode && !r.archiveRootDir.isEmpty &&
        hasSuffix (toLowerGo path) (gs ".md")) = true
    · rw [if_pos harch, hres]
    · rw [if_neg (by simp_all), hscheme, hanchor, hdata, hmailto, htel, hjs]
      simp [hbase]
  · rw [processImagePath]
    by_cases hskip : (hasPrefix path (gs "#") || hasPrefix path (gs "data:") ||
        hasPrefix path (gs "mailto:") || hasPrefix path (gs "tel:") ||
        hasPrefix path (gs "http://") || hasPrefix path (gs "https://")) = true
    · rw [if_pos hskip]
    · rw [if_neg (by simp_all), hres]

/-- Witness for `noBaseDir_passthrough` at a concrete bare relative
destination. -/
theorem noBaseDir_passthrough_witness :
    processLinkPath unixConv ⟨[], true, true, true, gs "/r"⟩ (gs "img/doc.md") = gs "img/doc.md" ∧
    processImagePath unixConv ⟨fun _ => none⟩ emptyCache ⟨[], true, true, true, gs "/r"⟩ (gs "img/doc.md") = gs "img/doc.md" :=
  noBaseDir_passthrough unixConv ⟨fun _ => none⟩ emptyCache ⟨[], true, true, true, gs "/r"⟩
    (gs "img/doc.md") rfl (by decide) (by decide) (by decide) (by decide) (by decide) (by decide)

/-- C3: with the archive-mode flag active and an archive root directory
configured, a local-file-scheme destination (`file:///…`) ending in
`.md` is converted by `processLinkPath` into a navigation reference
carrying the root-relative forward-slash key — it is not passed through
unchanged, because the markdown-target check runs before the generic
scheme/anchor passthrough check. -/
theorem archiveMode_fileURL_converted (cv : OsConv) (r : PathRenderer) (path : GoStr)
    (harch : r.archiveMode = true)
    (hroot : r.archiveRootDir ≠ [])
    (hfile : hasPrefix path (gs "file:///") = true)
    (hmd : hasSuffix (toLowerGo path) (gs ".md") = true) :
    processLinkPath cv r path =
      mdviewLoadPageCall (replaceAll
        ((goRel cv r.archiveRootDir
            (goClean cv (goFromSlash cv (trimPrefix path (gs "file:///"))))).getD
          (goBase cv (goClean cv (goFromSlash cv (trimPrefix path (gs "file:///"))))))
        '\\' (gs "/")) ∧
    processLinkPath cv r path ≠ path := by
  have hcond : (r.archiveMode && !r.archiveRootDir.isEmpty &&
      hasSuffix (toLowerGo path) (gs ".md")) = true := by
    rw [harch, hmd]
    simp [List.isEmpty_iff, hroot]
  have hres : resolveLocal cv r.baseDir path =
      some (goFromSlash cv (trimPrefix path (gs "file:///"))) := by
    rw [resolveLocal, hfile]
    simp
  have heq : processLinkPath cv r path =
      mdviewLoadPageCall (replaceAll
        ((goRel cv r.archiveRootDir
            (goClean cv (goFromSlash cv (trimPrefix path (gs "file:///"))))).getD
          (goBase cv (goClean cv (goFromSlash cv (trimPrefix path (gs "file:///"))))))
        '\\' (gs "/")) := by
    rw [processLinkPath, if_pos hcond, hres]
  refine ⟨heq, ?_⟩
  rw [heq]
  intro hcontra
  have hj : path.head? = some 'j' := by
    rw [← hcontra]
    rfl
  have hf : path.head? = some 'f' := by
    rw [hasPrefix, List.isPrefixOf_iff_prefix] at hfile
    obtain ⟨t, ht⟩ := hfile
    rw [← ht]
    rfl
  rw [hj] at hf
  exact absurd hf (by decide)

/-- Witness for `archiveMode_fileURL_converted` at a concrete
`file:///` markdown destination. -/
theorem archiveMode_fileURL_converted_witness :
    processLinkPath windowsConv ⟨gs "C:\\docs", false, false, true, gs "C:\\docs"⟩
        (gs "file:///C:/docs/sub/page.md") =
      mdviewLoadPageCall (gs "sub/page.md") := by
  have h := archiveMode_fileURL_converted windowsConv
    ⟨gs "C:\\docs", false, false, true, gs "C:\\docs"⟩
    (gs "file:///C:/docs/sub/page.md") rfl (by decide) (by decide) (by decide)
  rw [h.1]
  decide

/-- Strings whose first characters differ are not prefix-related. -/
theorem hasPrefix_head_ne {s pre : GoStr} {a b : Char}
    (hs : s.head? = some a) (hp : pre.head? = some b) (hne : a ≠ b) :
    hasPrefix s pre = false := by
  cases s with
  | nil => simp at hs
  | cons d ds =>
    cases pre with
    | nil => simp at hp
    | cons c cs =>
      simp at hs hp
      subst hs
      subst hp
      rw [hasPrefix]
      by_contra h
      rw [Bool.not_eq_false, List.isPrefixOf_iff_prefix] at h
      obtain ⟨t, ht⟩ := h
      simp at ht
      exact hne ht.1.symm

/-- C4: in self-contained mode, an image destination that resolves to a
local path with a known binary MIME extension but whose file cannot be
read (neither cached nor readable from disk) yields the local-file
reference for the resolved path — never an empty or broken data URI —
and `processImagePath` is total, so the read failure cannot abort the
conversion. -/
theorem missingImage_fallback (cv : OsConv) (fs : ImgFS) (cache : CacheSnap)
    (r : PathRenderer) (path a0 : GoStr)
    (hsc : r.selfContained = true)
    (hanchor : hasPrefix path (gs "#") = false)
    (hdata : hasPrefix path (gs "data:") = false)
    (hmailto : hasPrefix path (gs "mailto:") = false)
    (htel : hasPrefix path (gs "tel:") = false)
    (hhttp : hasPrefix path (gs "http://") = false)
    (hhttps : hasPrefix path (gs "https://") = false)
    (hres : resolveLocal cv r.baseDir path = some a0)
    (hmime : getMimeTypeFromExtension cv (goClean cv a0) ≠ [])
    (hcache : cache (goClean cv a0) = none)
    (hread : fs.readFile (goClean cv a0) = none) :
    processImagePath cv fs cache r path = fileURLOf (goClean cv a0) ∧
    hasPrefix (processImagePath cv fs cache r path) (gs "data:") = false ∧
    processImagePath cv fs cache r path ≠ [] := by
  have heq : processImagePath cv fs cache r path = fileURLOf (goClean cv a0) := by
    rw [processImagePath, if_neg (by simp_all), hres]
    simp only [hsc, if_pos]
    rw [if_pos (by simp [List.isEmpty_iff, hmime])]
    cases hp : r.preload <;> simp only [hp, hcache, hread, if_pos, if_neg, Bool.false_eq_true, if_false, if_true]
  refine ⟨heq, ?_, ?_⟩
  · rw [heq, fileURLOf]
    exact hasPrefix_head_ne rfl rfl (by decide)
  · rw [heq, fileURLOf]
    intro hcontra
    exact absurd (congrArg List.length hcontra) (by simp [gs])

/-- Witness for `missingImage_fallback` at a concrete unreadable PNG. -/
theorem missingImage_fallback_witness :
    processImagePath unixConv ⟨fun _ => none⟩ emptyCache
      ⟨gs "/d", true, true, false, []⟩ (gs "missing.png") = gs "file:////d/missing.png" := by
  have h := missingImage_fallback unixConv ⟨fun _ => none⟩ emptyCache
    ⟨gs "/d", true, true, false, []⟩ (gs "missing.png") (gs "/d/missing.png")
    rfl (by decide) (by decide) (by decide) (by decide) (by decide) (by decide)
    (by decide) (by decide) rfl rfl
  rw [h.1]
  decide

/-!  Concrete fixtures: a root document linking a nested document, on a
backslash host and on a forward-slash host.  -/

set_option maxRecDepth 100000

/-- Windows-convention filesystem with `C:\docs\root.md` linking
`roles/engineering/README.md`. -/
def nestedWinFS : GoFS :=
  ⟨[gs "C:\\docs\\root.md", gs "C:\\docs\\roles\\engineering\\README.md"],
   [(gs "C:\\docs\\root.md", ⟨[gs "roles/engineering/README.md"], []⟩),
    (gs "C:\\docs\\roles\\engineering\\README.md", ⟨[gs "../../root.md"], []⟩)]⟩

/-- The same layout on a forward-slash host. -/
def nestedUnixFS : GoFS :=
  ⟨[gs "/docs/root.md", gs "/docs/roles/engineering/README.md"],
   [(gs "/docs/root.md", ⟨[gs "roles/engineering/README.md"], []⟩),
    (gs "/docs/roles/engineering/README.md", ⟨[gs "../../root.md"], []⟩)]⟩

/-- The bundle keys a `BuildGraph` result feeds to the packager (each
node's `RelativePath`, the key of the `pages` map). -/
def bundleKeysOf (res : Except GoStr BuildResult) : List GoStr :=
  match res with
  | .ok r => r.graph.nodes.map (fun n => n.relativePath)
  | .error _ => []

/-- The graph of a successful `BuildGraph` result. -/
def graphOfRes (res : Except GoStr BuildResult) : GoGraph :=
  match res with
  | .ok r => r.graph
  | .error _ => ⟨[], [], 0⟩

/-- A packager environment whose collaborators always succeed (empty
template assets, trivial renderer and compressor), used to inspect the
emitted archive text. -/
def okEnv : ArchiveEnv :=
  ⟨fun _ => .ok (gs "<body></body>"), fun _ => .ok [], [], [], []⟩

/-- The single destination write of a packager run (empty if it
errored). -/
def writtenContent (res : Except GoStr Unit × List FsAction) : GoStr :=
  match res.2 with
  | [.writeFile _ content] => content
  | _ => []

/-- C1 (failing evaluation): on a backslash host the bundle key the
Archive Packager stores for the nested document is
`roles\engineering\README.md` (the `RelativePath` computed by
`BuildGraph`, which never normalises separators), while the navigation
reference the Asset Resolver generates for a link to the same file
carries the forward-slash key `roles/engineering/README.md`; the two
are not byte-identical, and the emitted archive's `pages` object holds
only the backslash form.  On a forward-slash host the keys agree — so
the key is not the same string regardless of host separator convention,
contradicting the claimed invariant (and the repository's own
`TestArchiveConverter_NestedDirectoryPaths` /
`TestArchiveConverter_PathEscaping` expectations). -/
theorem bundleKey_navKey_divergence :
    bundleKeysOf (BuildGraph windowsConv nestedWinFS (gs "C:\\docs\\root.md") 10) =
      [gs "root.md", gs "roles\\engineering\\README.md"] ∧
    processLinkPath windowsConv ⟨gs "C:\\docs", true, false, true, gs "C:\\docs"⟩
        (gs "roles/engineering/README.md") =
      mdviewLoadPageCall (gs "roles/engineering/README.md") ∧
    gs "roles\\engineering\\README.md" ≠ gs "roles/engineering/README.md" ∧
    containsSub
      (writtenContent (ConvertToArchive okEnv
        (graphOfRes (BuildGraph windowsConv nestedWinFS (gs "C:\\docs\\root.md") 10))
        (gs "out.html")))
      (gs "\"roles\\\\engineering\\\\README.md\"") = true ∧
    containsSub
      (writtenContent (ConvertToArchive okEnv
        (graphOfRes (BuildGraph windowsConv nestedWinFS (gs "C:\\docs\\root.md") 10))
        (gs "out.html")))
      (gs "\"roles/engineering/README.md\"") = false ∧
    bundleKeysOf (BuildGraph unixConv nestedUnixFS (gs "/docs/root.md") 10) =
      [gs "root.md", gs "roles/engineering/README.md"] ∧
    processLinkPath unixConv ⟨gs "/docs", true, false, true, gs "/docs"⟩
        (gs "roles/engineering/README.md") =
      mdviewLoadPageCall (gs "roles/engineering/README.md") := by
  refine ⟨by decide, by decide, by decide, by decide, by decide, by decide, by decide⟩

/-- Decidable equality for `Except` results (missing from core). -/
instance {α β : Type} [DecidableEq α] [DecidableEq β] : DecidableEq (Except α β) := fun x y =>
  match x, y with
  | .ok a, .ok b => if h : a = b then .isTrue (by rw [h]) else .isFalse (by simp [h])
  | .error a, .error b => if h : a = b then .isTrue (by rw [h]) else .isFalse (by simp [h])
  | .ok _, .error _ => .isFalse (by simp)
  | .error _, .ok _ => .isFalse (by simp)

/-- Five-document chain `root → a → b → c → d` on a forward-slash
host. -/
def chainFS : GoFS :=
  ⟨[gs "/d/root.md", gs "/d/a.md", gs "/d/b.md", gs "/d/c.md", gs "/d/d.md"],
   [(gs "/d/root.md", ⟨[gs "a.md"], []⟩),
    (gs "/d/a.md", ⟨[gs "b.md"], []⟩),
    (gs "/d/b.md", ⟨[gs "c.md"], []⟩),
    (gs "/d/c.md", ⟨[gs "d.md"], []⟩),
    (gs "/d/d.md", ⟨[], []⟩)]⟩

/-- Whenever the BFS loop stops with a non-empty queue, `BuildGraph`
computes the excluded count (the leftover queue length) and emits the
truncation warning carrying it. -/
theorem buildGraph_truncation_warning (cv : OsConv) (fs : GoFS) (rootPath : GoStr)
    (maxPages : Int) (res : BuildResult)
    (hres : BuildGraph cv fs rootPath maxPages = .ok res)
    (hlv : res.leftover ≠ []) :
    GoWarning.truncated maxPages res.leftover.length ∈ res.warnings := by
  rw [BuildGraph] at hres
  by_cases hstat : (!fs.statOk rootPath) = true
  · rw [if_pos hstat] at hres
    exact absurd hres (by simp)
  · rw [if_neg hstat] at hres
    simp only [Except.ok.injEq] at hres
    subst hres
    simp only [BuildResult.leftover] at hlv
    have hne : (bfsLoop cv fs (goDir cv rootPath) maxPages (buildGraphFuel fs)
        (initState rootPath)).queue.isEmpty = false := by
      rw [List.isEmpty_eq_false]
      exact hlv
    simp only [BuildResult.warnings, hne, Bool.not_false, if_pos]
    exact List.mem_append_right _ (List.mem_singleton.mpr rfl)

/-- C2: for the 5-document chain built with `maxPages = 3`, the graph
contains exactly the first three breadth-discovered documents (root, a,
b, at depths 0–2, count 3) and neither of the remaining two; and, in
general, whenever discovery stops with a non-empty queue the excluded
count is computed and reported in a truncation warning.  (In this chain
run the queue is empty at stop — the third document's link is simply
never enqueued — so no warning is emitted.) -/
theorem chain_maxPages_truncation :
    BuildGraph unixConv chainFS (gs "/d/root.md") 3 =
      .ok ⟨⟨gs "/d/root.md",
            [⟨gs "/d/root.md", gs "root.md", [gs "/d/a.md"], 0⟩,
             ⟨gs "/d/a.md", gs "a.md", [gs "/d/b.md"], 1⟩,
             ⟨gs "/d/b.md", gs "b.md", [gs "/d/c.md"], 2⟩], 3⟩,
           [], []⟩ ∧
    (graphOfRes (BuildGraph unixConv chainFS (gs "/d/root.md") 3)).nodes.all
      (fun n => !(n.path == gs "/d/c.md") && !(n.path == gs "/d/d.md")) = true ∧
    ∀ (cv : OsConv) (fs : GoFS) (rootPath : GoStr) (maxPages : Int) (res : BuildResult),
      BuildGraph cv fs rootPath maxPages = .ok res → res.leftover ≠ [] →
      GoWarning.truncated maxPages res.leftover.length ∈ res.warnings := by
  refine ⟨by decide, by decide, buildGraph_truncation_warning⟩

/-- Witness for the general truncation conjunct of
`chain_maxPages_truncation`: a root with two links built with
`maxPages = 2` stops with one queued document and reports exactly one
excluded page. -/
theorem chain_maxPages_truncation_witness :
    GoWarning.truncated 2 1 ∈
      (⟨⟨gs "/d/r.md",
         [⟨gs "/d/r.md", gs "r.md", [gs "/d/a.md", gs "/d/b.md"], 0⟩,
          ⟨gs "/d/a.md", gs "a.md", [], 1⟩], 2⟩,
        [GoWarning.truncated 2 1], [(gs "/d/b.md", 1)]⟩ : BuildResult).warnings :=
  chain_maxPages_truncation.2.2 unixConv
    ⟨[gs "/d/r.md", gs "/d/a.md", gs "/d/b.md"],
     [(gs "/d/r.md", ⟨[gs "a.md", gs "b.md"], []⟩),
      (gs "/d/a.md", ⟨[], []⟩), (gs "/d/b.md", ⟨[], []⟩)]⟩
    (gs "/d/r.md") 2 _ (by decide) (by decide)

/-!  C5: compression failure is fatal and nothing is written.  -/

/-- Membership is preserved by depth-ordered insertion. -/
theorem mem_insertByDepth {n x : GoNode} {l : List GoNode} :
    x ∈ insertByDepth n l ↔ x = n ∨ x ∈ l := by
  induction l with
  | nil => simp [insertByDepth]
  | cons m rest ih =>
    rw [insertByDepth]
    by_cases h : m.depth ≤ n.depth
    · rw [if_pos h]
      simp [ih]
      tauto
    · rw [if_neg h]
      simp

/-- `OrderedNodes` is a rearrangement: same members as the node list. -/
theorem mem_OrderedNodes {g : GoGraph} {x : GoNode} :
    x ∈ g.OrderedNodes ↔ x ∈ g.nodes := by
  rw [GoGraph.OrderedNodes]
  induction g.nodes with
  | nil => simp
  | cons m rest ih =>
    simp [List.foldr_cons, mem_insertByDepth, ih]

/-- If some node in the list converts fine but fails to compress, the
per-node loop returns an error. -/
theorem convertPagesLoop_error (env : ArchiveEnv) (nodes : List GoNode)
    (acc : List (GoStr × GoStr))
    (h : ∃ nd ∈ nodes, ∃ htmlContent, env.convertPage nd.path = .ok htmlContent ∧
         ∃ e, env.compress htmlContent = .error e) :
    ∃ msg, convertPagesLoop env nodes acc = .error msg := by
  induction nodes generalizing acc with
  | nil => simp at h
  | cons nd rest ih =>
    rw [convertPagesLoop]
    obtain ⟨w, hw, htmlContent, hconv, e, hcomp⟩ := h
    rcases List.mem_cons.mp hw with rfl | hwrest
    · simp only [hconv, hcomp]
      exact ⟨_, rfl⟩
    · cases hc : env.convertPage nd.path with
      | error e' => simp only [hc]; exact ⟨_, rfl⟩
      | ok html' =>
        cases hz : env.compress html' with
        | error e' => simp only [hc, hz]; exact ⟨_, rfl⟩
        | ok compressed =>
          simp only [hc, hz]
          exact ih _ ⟨w, hwrest, htmlContent, hconv, e, hcomp⟩

/-- C5: if compressing the rendered HTML of any node of the graph fails,
`ConvertToArchive` returns an operation-level error (not a per-node
degradation) and performs no destination write at all — no partial
bundle is produced. -/
theorem compressFailure_fatal_noWrite (env : ArchiveEnv) (g : GoGraph) (outputPath : GoStr)
    (h : ∃ nd ∈ g.nodes, ∃ htmlContent, env.convertPage nd.path = .ok htmlContent ∧
         ∃ e, env.compress htmlContent = .error e) :
    (∃ msg, (ConvertToArchive env g outputPath).1 = .error msg) ∧
    (ConvertToArchive env g outputPath).2 = [] := by
  have h' : ∃ nd ∈ g.OrderedNodes, ∃ htmlContent, env.convertPage nd.path = .ok htmlContent ∧
      ∃ e, env.compress htmlContent = .error e := by
    obtain ⟨nd, hnd, rest⟩ := h
    exact ⟨nd, mem_OrderedNodes.mpr hnd, rest⟩
  obtain ⟨msg, hmsg⟩ := convertPagesLoop_error env g.OrderedNodes [] h'
  rw [ConvertToArchive, hmsg]
  exact ⟨⟨msg, rfl⟩, rfl⟩

/-- Witness for `compressFailure_fatal_noWrite`: a one-node graph whose
compressor always fails yields an error and an empty write trace. -/
theorem compressFailure_fatal_noWrite_witness :
    (∃ msg, (ConvertToArchive
      ⟨fun _ => .ok (gs "<body></body>"), fun _ => .error (gs "gzip broken"), [], [], []⟩
      ⟨gs "/d/r.md", [⟨gs "/d/r.md", gs "r.md", [], 0⟩], 1⟩ (gs "out.html")).1 = .error msg) ∧
    (ConvertToArchive
      ⟨fun _ => .ok (gs "<body></body>"), fun _ => .error (gs "gzip broken"), [], [], []⟩
      ⟨gs "/d/r.md", [⟨gs "/d/r.md", gs "r.md", [], 0⟩], 1⟩ (gs "out.html")).2 = [] :=
  compressFailure_fatal_noWrite _ _ _
    ⟨⟨gs "/d/r.md", gs "r.md", [], 0⟩, by decide, gs "<body></body>", rfl, gs "gzip broken", rfl⟩

/-!  C8: directory preload does not change the output.  -/

/-- The image-data fetch (cache hit first, else direct read) returns
exactly the direct read whenever the cache snapshot is coherent with the
filesystem. -/
theorem cachedFetch_eq (fs : ImgFS) (cache : CacheSnap) (hcoh : cacheCoherent fs cache)
    (b : Bool) (a : GoStr) :
    (match (if b then cache a else none) with
     | some d => some d
     | none => fs.readFile a) = fs.readFile a := by
  cases b
  · simp
  · simp only [if_pos]
    cases hc : cache a
    · simp
    · simp [hcoh a _ hc]

/-- `processImagePath` with preloading enabled over a coherent cache
equals `processImagePath` with preloading disabled. -/
theorem processImagePath_preload_transparent (cv : OsConv) (fs : ImgFS) (cache : CacheSnap)
    (hcoh : cacheCoherent fs cache) (bd : GoStr) (sc am : Bool) (ar : GoStr) (path : GoStr) :
    processImagePath cv fs cache ⟨bd, sc, true, am, ar⟩ path =
    processImagePath cv fs emptyCache ⟨bd, sc, false, am, ar⟩ path := by
  rw [processImagePath, processImagePath]
  by_cases hskip : (hasPrefix path (gs "#") || hasPrefix path (gs "data:") ||
      hasPrefix path (gs "mailto:") || hasPrefix path (gs "tel:") ||
      hasPrefix path (gs "http://") || hasPrefix path (gs "https://")) = true
  · rw [if_pos hskip, if_pos hskip]
  · rw [if_neg hskip, if_neg hskip]
    cases hres : resolveLocal cv bd path with
    | none => rfl
    | some a0 =>
      dsimp only
      rw [cachedFetch_eq fs cache hcoh, cachedFetch_eq fs emptyCache (fun p d h => by cases h)]

/-- One raw-HTML segment renders identically with and without
preloading over a coherent cache. -/
theorem processRawHTMLContent_preload_transparent (cv : OsConv) (fs : ImgFS)
    (cache : CacheSnap) (hcoh : cacheCoherent fs cache) (bd : GoStr) (sc am : Bool)
    (ar : GoStr) (segs : List RawSeg) :
    processRawHTMLContent cv fs cache ⟨bd, sc, true, am, ar⟩ segs =
    processRawHTMLContent cv fs emptyCache ⟨bd, sc, false, am, ar⟩ segs := by
  rw [processRawHTMLContent, processRawHTMLContent]
  congr 1
  apply List.map_congr_left
  intro seg _
  cases seg with
  | lit s => rfl
  | srcAttr pre p suf =>
    dsimp only
    rw [processImagePath_preload_transparent cv fs cache hcoh]
  | anchorHref pre p mid => rfl
  | cssUrl pre p suf => rfl

/-- Every render event produces the same bytes with and without
preloading over a coherent cache. -/
theorem renderEvent_preload_transparent (cv : OsConv) (fs : ImgFS) (cache : CacheSnap)
    (hcoh : cacheCoherent fs cache) (bd : GoStr) (sc am : Bool) (ar : GoStr)
    (ev : MdEvent) :
    renderEvent cv fs cache ⟨bd, sc, true, am, ar⟩ ev =
    renderEvent cv fs emptyCache ⟨bd, sc, false, am, ar⟩ ev := by
  cases ev with
  | defaultHTML s => rfl
  | image dest alt title =>
    simp only [renderEvent]
    rw [processImagePath_preload_transparent cv fs cache hcoh]
  | linkOpen dest title => rfl
  | linkClose => rfl
  | rawHTML segs =>
    simp only [renderEvent]
    rw [processRawHTMLContent_preload_transparent cv fs cache hcoh]

/-- C8: for the same markdown input (event stream), template, settings
and filesystem state, the converter's full HTML output with directory
preload enabled is byte-identical to its output with preload disabled:
serving an asset from the (coherent) preload cache and reading it from
disk embed the same bytes, and nothing else in the pipeline consults the
preload flag. -/
theorem preload_output_identical (cv : OsConv) (fs : ImgFS) (cache : CacheSnap)
    (c : ConverterCfg) (tmpl : GoTemplate) (events : List MdEvent)
    (hcoh : cacheCoherent fs cache) :
    convertDocument cv fs cache
      ⟨c.baseDir, c.selfContained, true, c.archiveMode, c.archiveRootDir, c.title⟩ tmpl events =
    convertDocument cv fs emptyCache
      ⟨c.baseDir, c.selfContained, false, c.archiveMode, c.archiveRootDir, c.title⟩ tmpl events := by
  rw [convertDocument, convertDocument]
  have hhead : writeHeader cv fs
      ⟨c.baseDir, c.selfContained, true, c.archiveMode, c.archiveRootDir, c.title⟩ tmpl =
      writeHeader cv fs
      ⟨c.baseDir, c.selfContained, false, c.archiveMode, c.archiveRootDir, c.title⟩ tmpl := rfl
  rw [hhead]
  congr 2
  congr 1
  apply List.map_congr_left
  intro ev _
  exact renderEvent_preload_transparent cv fs cache hcoh _ _ _ _ ev

/-- Witness for `preload_output_identical` at a concrete document (one
image, coherent one-entry cache). -/
theorem preload_output_identical_witness :
    convertDocument unixConv
      ⟨fun p => if p = gs "/d/i.png" then some [137, 80] else none⟩
      (fun p => if p = gs "/d/i.png" then some [137, 80] else none)
      ⟨gs "/d", true, true, false, [], []⟩ ⟨[], [], []⟩
      [.image (gs "i.png") (gs "x") none] =
    convertDocument unixConv
      ⟨fun p => if p = gs "/d/i.png" then some [137, 80] else none⟩
      emptyCache
      ⟨gs "/d", true, false, false, [], []⟩ ⟨[], [], []⟩
      [.image (gs "i.png") (gs "x") none] :=
  preload_output_identical unixConv
    ⟨fun p => if p = gs "/d/i.png" then some [137, 80] else none⟩
    (fun p => if p = gs "/d/i.png" then some [137, 80] else none)
    ⟨gs "/d", true, true, false, [], []⟩ ⟨[], [], []⟩
    [.image (gs "i.png") (gs "x") none]
    (fun p d h => by
      by_cases hp : p = gs "/d/i.png"
      · subst hp
        simpa using h
      · simp [hp] at h)

/-!  C10: scanner deduplication and fragment/query stripping.  -/

/-- The dedup fold keeps its accumulator duplicate-free. -/
theorem deduplicateLinks_aux_nodup (links : List GoStr) (acc : List GoStr)
    (hacc : acc.Nodup) :
    (links.foldl (fun res link => if res.contains link then res else res ++ [link]) acc).Nodup := by
  induction links generalizing acc with
  | nil => exact hacc
  | cons l rest ih =>
    rw [List.foldl_cons]
    by_cases hc : acc.contains l = true
    · rw [if_pos hc]
      exact ih acc hacc
    · rw [if_neg hc]
      refine ih _ ?_
      rw [List.nodup_append]
      refine ⟨hacc, List.nodup_singleton l, ?_⟩
      intro x hx hxl
      rw [List.mem_singleton] at hxl
      subst hxl
      rw [List.contains_eq_any_beq] at hc
      simp at hc
      exact hc hx

/-- `deduplicateLinks` returns a duplicate-free list. -/
theorem deduplicateLinks_nodup (links : List GoStr) : (deduplicateLinks links).Nodup :=
  deduplicateLinks_aux_nodup links [] List.nodup_nil

/-- `ScanMarkdownLinks` never returns the same absolute path twice, even
when the source references a target many times or via both a structured
link and a raw-HTML href. -/
theorem ScanMarkdownLinks_nodup (cv : OsConv) (content : MdContent) (baseDir : GoStr) :
    (ScanMarkdownLinks cv content baseDir).Nodup :=
  deduplicateLinks_nodup _

/-- `splitFirst` at a character the string lacks is the identity. -/
theorem splitFirst_of_not_mem {x : GoStr} {c : Char} (h : c ∉ x) : splitFirst x c = x := by
  induction x with
  | nil => rfl
  | cons a x' ih =>
    have ha : a ≠ c := by
      rintro rfl
      exact h (List.mem_cons_self _ _)
    rw [splitFirst, List.takeWhile_cons, if_pos (decide_eq_true ha)]
    exact congrArg (a :: ·) (ih (fun hc => h (List.mem_cons_of_mem a hc)))

/-- `takeWhile` walks through a wholly-satisfying prefix. -/
theorem takeWhile_append_all {x t : GoStr} {q : Char → Bool}
    (h : ∀ a ∈ x, q a = true) : (x ++ t).takeWhile q = x ++ t.takeWhile q := by
  induction x with
  | nil => rfl
  | cons a x' ih =>
    rw [List.cons_append, List.takeWhile_cons, if_pos (h a (List.mem_cons_self a x'))]
    exact congrArg (a :: ·) (ih (fun b hb => h b (List.mem_cons_of_mem a hb)))

/-- `splitFirst` cuts exactly at the head of the appended suffix. -/
theorem splitFirst_append_head {x t : GoStr} {c : Char}
    (hx : c ∉ x) (ht : t.head? = some c) : splitFirst (x ++ t) c = x := by
  cases t with
  | nil => simp at ht
  | cons h0 t' =>
    simp only [List.head?_cons, Option.some.injEq] at ht
    subst ht
    rw [splitFirst, takeWhile_append_all (fun a ha =>
      decide_eq_true (show a ≠ h0 from fun hac => hx (hac ▸ ha)))]
    rw [List.takeWhile_cons]
    simp

/-- Stripping the fragment then the query from a clean destination plus
a `#…` or `?…` suffix recovers the destination. -/
theorem stripFragQuery_append {x t : GoStr}
    (hsharp : '#' ∉ x) (hquest : '?' ∉ x)
    (ht : t.head? = some '#' ∨ t.head? = some '?') :
    splitFirst (splitFirst (x ++ t) '#') '?' = x := by
  rcases ht with ht | ht
  · rw [splitFirst_append_head hsharp ht]
    exact splitFirst_of_not_mem hquest
  · cases t with
    | nil => simp at ht
    | cons h0 t' =>
      simp only [List.head?_cons, Option.some.injEq] at ht
      subst ht
      have hin : splitFirst (x ++ '?' :: t') '#' =
          x ++ List.takeWhile (fun a => decide (a ≠ '#')) ('?' :: t') := by
        rw [splitFirst]
        exact takeWhile_append_all (fun a ha =>
          decide_eq_true (show a ≠ '#' from fun hac => hsharp (hac ▸ ha)))
      rw [hin]
      refine splitFirst_append_head hquest ?_
      rw [List.takeWhile_cons, if_pos (by decide)]
      rfl

/-- The empty candidate is a prefix of everything. -/
theorem isPrefixOf_nil_left (y : GoStr) : List.isPrefixOf ([] : GoStr) y = true := by
  cases y <;> rfl

/-- A prefix test is unaffected by appending a suffix whose first
character the candidate prefix lacks. -/
theorem hasPrefix_append_eq {p s pre : GoStr} {h : Char}
    (hs : s.head? = some h) (hh : h ∉ pre) :
    hasPrefix (p ++ s) pre = hasPrefix p pre := by
  induction pre generalizing p with
  | nil =>
    rw [hasPrefix, hasPrefix, isPrefixOf_nil_left, isPrefixOf_nil_left]
  | cons c cs ih =>
    cases p with
    | nil =>
      cases s with
      | nil => simp at hs
      | cons h0 s' =>
        simp only [List.head?_cons, Option.some.injEq] at hs
        have hch : h0 ≠ c := by
          intro he
          apply hh
          rw [← hs, he]
          exact List.mem_cons_self _ _
        rw [List.nil_append]
        rw [@hasPrefix_head_ne (h0 :: s') (c :: cs) h0 c rfl rfl hch]
        rfl
    | cons a p' =>
      show List.isPrefixOf (c :: cs) (a :: (p' ++ s)) = List.isPrefixOf (c :: cs) (a :: p')
      rw [List.isPrefixOf_cons₂, List.isPrefixOf_cons₂]
      by_cases hca : (c == a) = true
      · rw [hca, Bool.true_and, Bool.true_and]
        exact ih (fun hc => hh (List.mem_cons_of_mem c hc))
      · rw [Bool.not_eq_true] at hca
        rw [hca, Bool.false_and, Bool.false_and]

/-- Containment in a prefix implies containment in the whole. -/
theorem containsSub_of_append {p s sub : GoStr}
    (h : containsSub (p ++ s) sub = false) : containsSub p sub = false := by
  by_contra hc
  rw [Bool.not_eq_false, containsSub_iff] at hc
  rw [← Bool.not_eq_true, containsSub_iff] at h
  exact h (hc.trans (List.prefix_append p s).isInfix)

/-- `trimPrefix` of an extended string drops the same prefix. -/
theorem trimPrefix_append {p s pre : GoStr} (hf : List.isPrefixOf pre p = true) :
    trimPrefix (p ++ s) pre = trimPrefix p pre ++ s := by
  have hp : pre <+: p := List.isPrefixOf_iff_prefix.mp hf
  have hps : List.isPrefixOf pre (p ++ s) = true :=
    List.isPrefixOf_iff_prefix.mpr (hp.trans (List.prefix_append p s))
  rw [trimPrefix, trimPrefix, if_pos hps, if_pos hf,
    List.drop_append_of_le_length hp.length_le]

/-- Characters survive `trimPrefix` exclusion. -/
theorem not_mem_trimPrefix {p pre : GoStr} {c : Char} (h : c ∉ p) :
    c ∉ trimPrefix p pre := by
  rw [trimPrefix]
  by_cases hf : List.isPrefixOf pre p = true
  · rw [if_pos hf]
    exact fun hc => h ((List.drop_sublist _ _).mem hc)
  · rw [if_neg hf]
    exact h

/-- `goFromSlash` introduces only the separator character. -/
theorem not_mem_goFromSlash {cv : OsConv} {x : GoStr} {c : Char}
    (h : c ∉ x) (hsep : c ≠ cv.sep) : c ∉ goFromSlash cv x := by
  rw [goFromSlash]
  intro hc
  obtain ⟨b, hb, hbc⟩ := List.mem_map.mp hc
  by_cases hb' : b = '/'
  · rw [if_pos hb'] at hbc
    exact hsep hbc.symm
  · rw [if_neg hb'] at hbc
    exact h (hbc ▸ hb)

/-- `goFromSlash` keeps a non-slash head character. -/
theorem head_goFromSlash {cv : OsConv} {s : GoStr} {ch : Char}
    (h : s.head? = some ch) (hch : ch ≠ '/') :
    (goFromSlash cv s).head? = some ch := by
  cases s with
  | nil => simp at h
  | cons c0 s0 =>
    simp only [List.head?_cons, Option.some.injEq] at h
    subst h
    rw [goFromSlash, List.map_cons, List.head?_cons, if_neg hch]

/-- A one-character prefix test only inspects the head. -/
theorem hasPrefix_single {s : GoStr} {a c : Char} (h : s.head? = some a) :
    hasPrefix s [c] = (c == a) := by
  cases s with
  | nil => simp at h
  | cons b l =>
    simp only [List.head?_cons, Option.some.injEq] at h
    subst h
    rw [hasPrefix, List.isPrefixOf_cons₂, isPrefixOf_nil_left, Bool.and_true]

/-- C10 (amended invariance): appending a `#fragment` or `?query`
suffix to a clean markdown destination does not change what
`processLink` resolves it to, provided the combined destination carries
no `://` scheme marker (the counterexample shows stripping happens after
the scheme check, so a suffix containing `://` kills resolution). -/
theorem processLink_suffix_invariant (cv : OsConv) (baseDir p s : GoStr)
    (hcv : cv = unixConv ∨ cv = windowsConv)
    (hhead : s.head? = some '#' ∨ s.head? = some '?')
    (hsharp : '#' ∉ p) (hquest : '?' ∉ p)
    (hns : containsSub (p ++ s) (gs "://") = false) :
    processLink cv baseDir (p ++ s) = processLink cv baseDir p := by
  obtain ⟨ch, hch, hch2⟩ : ∃ ch, s.head? = some ch ∧ (ch = '#' ∨ ch = '?') := by
    rcases hhead with h | h
    · exact ⟨'#', h, Or.inl rfl⟩
    · exact ⟨'?', h, Or.inr rfl⟩
  have hsep : cv.sep ≠ '#' ∧ cv.sep ≠ '?' := by
    rcases hcv with rfl | rfl <;> exact ⟨by decide, by decide⟩
  have hpcont : containsSub p (gs "://") = false := containsSub_of_append hns
  have hBfile : hasPrefix (p ++ s) (gs "file:///") = hasPrefix p (gs "file:///") :=
    hasPrefix_append_eq hch (by rcases hch2 with rfl | rfl <;> decide)
  have hBhttp : hasPrefix (p ++ s) (gs "http://") = hasPrefix p (gs "http://") :=
    hasPrefix_append_eq hch (by rcases hch2 with rfl | rfl <;> decide)
  have hBhttps : hasPrefix (p ++ s) (gs "https://") = hasPrefix p (gs "https://") :=
    hasPrefix_append_eq hch (by rcases hch2 with rfl | rfl <;> decide)
  have hBmailto : hasPrefix (p ++ s) (gs "mailto:") = hasPrefix p (gs "mailto:") :=
    hasPrefix_append_eq hch (by rcases hch2 with rfl | rfl <;> decide)
  have hBtel : hasPrefix (p ++ s) (gs "tel:") = hasPrefix p (gs "tel:") :=
    hasPrefix_append_eq hch (by rcases hch2 with rfl | rfl <;> decide)
  have hBftp : hasPrefix (p ++ s) (gs "ftp://") = hasPrefix p (gs "ftp://") :=
    hasPrefix_append_eq hch (by rcases hch2 with rfl | rfl <;> decide)
  cases p with
  | nil =>
    rw [List.nil_append] at hns ⊢
    cases s with
    | nil => simp at hch
    | cons c0 s0 =>
      simp only [List.head?_cons, Option.some.injEq] at hch
      subst hch
      have hErhs : (([] : GoStr)).isEmpty = true := rfl
      rcases hch2 with rfl | rfl
      · have hA : hasPrefix ('#' :: s0) (gs "#") = true := by
          rw [show gs "#" = ['#'] from rfl, hasPrefix_single List.head?_cons]
          rfl
        rw [processLink, processLink, if_pos hErhs,
          if_neg (show ¬ (('#' :: s0).isEmpty = true) by simp), if_pos hA]
      · have hA : ¬ (hasPrefix ('?' :: s0) (gs "#") = true) := by
          rw [show gs "#" = ['#'] from rfl, hasPrefix_single List.head?_cons]
          decide
        have hFile : ¬ (hasPrefix ('?' :: s0) (gs "file:///") = true) := by
          rw [@hasPrefix_head_ne ('?' :: s0) (gs "file:///") '?' 'f' rfl rfl (by decide)]
          decide
        have hProt : ¬ ((hasPrefix ('?' :: s0) (gs "http://") ||
            hasPrefix ('?' :: s0) (gs "https://") ||
            hasPrefix ('?' :: s0) (gs "mailto:") ||
            hasPrefix ('?' :: s0) (gs "tel:") ||
            hasPrefix ('?' :: s0) (gs "ftp://") ||
            containsSub ('?' :: s0) (gs "://")) = true) := by
          rw [@hasPrefix_head_ne ('?' :: s0) (gs "http://") '?' 'h' rfl rfl (by decide),
            @hasPrefix_head_ne ('?' :: s0) (gs "https://") '?' 'h' rfl rfl (by decide),
            @hasPrefix_head_ne ('?' :: s0) (gs "mailto:") '?' 'm' rfl rfl (by decide),
            @hasPrefix_head_ne ('?' :: s0) (gs "tel:") '?' 't' rfl rfl (by decide),
            @hasPrefix_head_ne ('?' :: s0) (gs "ftp://") '?' 'f' rfl rfl (by decide),
            hns]
          decide
        rw [processLink, processLink, if_pos hErhs,
          if_neg (show ¬ (('?' :: s0).isEmpty = true) by simp), if_neg hA, if_neg hFile,
          if_neg hProt]
        have hstrip := @stripFragQuery_append [] ('?' :: s0) (by simp) (by simp) (Or.inr rfl)
        rw [List.nil_append] at hstrip
        dsimp only
        rw [hstrip]
        rw [if_pos (by decide)]
  | cons a p' =>
    have hane : a ≠ '#' := by
      rintro rfl
      exact hsharp (List.mem_cons_self _ _)
    have hEmpL : ¬ (((a :: p') ++ s).isEmpty = true) := by
      rw [List.cons_append]
      simp
    have hEmpR : ¬ ((a :: p').isEmpty = true) := by simp
    have hAncL : ¬ (hasPrefix ((a :: p') ++ s) (gs "#") = true) := by
      rw [List.cons_append, show gs "#" = ['#'] from rfl, hasPrefix_single List.head?_cons]
      simp only [beq_iff_eq]
      exact fun h => hane h.symm
    have hAncR : ¬ (hasPrefix (a :: p') (gs "#") = true) := by
      rw [show gs "#" = ['#'] from rfl, hasPrefix_single List.head?_cons]
      simp only [beq_iff_eq]
      exact fun h => hane h.symm
    rw [processLink, processLink, if_neg hEmpL, if_neg hEmpR, if_neg hAncL, if_neg hAncR]
    by_cases hf : hasPrefix (a :: p') (gs "file:///") = true
    · have hfs : hasPrefix ((a :: p') ++ s) (gs "file:///") = true := by
        rw [hBfile]
        exact hf
      rw [if_pos hfs, if_pos hf]
      dsimp only
      rw [hasPrefix] at hf
      rw [trimPrefix_append hf]
      rw [goFromSlash, List.map_append, ← goFromSlash, ← goFromSlash]
      have hx1 : '#' ∉ goFromSlash cv (trimPrefix (a :: p') (gs "file:///")) :=
        not_mem_goFromSlash (not_mem_trimPrefix hsharp) (fun he => hsep.1 he.symm)
      have hx2 : '?' ∉ goFromSlash cv (trimPrefix (a :: p') (gs "file:///")) :=
        not_mem_goFromSlash (not_mem_trimPrefix hquest) (fun he => hsep.2 he.symm)
      have hhd : (goFromSlash cv s).head? = some ch :=
        head_goFromSlash hch (by rcases hch2 with rfl | rfl <;> decide)
      rw [stripFragQuery_append hx1 hx2 (by
        rcases hch2 with rfl | rfl
        · exact Or.inl hhd
        · exact Or.inr hhd)]
      rw [splitFirst_of_not_mem hx1, splitFirst_of_not_mem hx2]
    · have hfs : ¬ (hasPrefix ((a :: p') ++ s) (gs "file:///") = true) := by
        rw [hBfile]
        exact hf
      rw [if_neg hfs, if_neg hf]
      by_cases hprot : (hasPrefix (a :: p') (gs "http://") ||
          hasPrefix (a :: p') (gs "https://") ||
          hasPrefix (a :: p') (gs "mailto:") ||
          hasPrefix (a :: p') (gs "tel:") ||
          hasPrefix (a :: p') (gs "ftp://") ||
          containsSub (a :: p') (gs "://")) = true
      · have hprotL : (hasPrefix ((a :: p') ++ s) (gs "http://") ||
            hasPrefix ((a :: p') ++ s) (gs "https://") ||
            hasPrefix ((a :: p') ++ s) (gs "mailto:") ||
            hasPrefix ((a :: p') ++ s) (gs "tel:") ||
            hasPrefix ((a :: p') ++ s) (gs "ftp://") ||
            containsSub ((a :: p') ++ s) (gs "://")) = true := by
          rw [hBhttp, hBhttps, hBmailto, hBtel, hBftp, hns]
          rw [hpcont] at hprot
          exact hprot
        rw [if_pos hprotL, if_pos hprot]
      · have hprotL : ¬ ((hasPrefix ((a :: p') ++ s) (gs "http://") ||
            hasPrefix ((a :: p') ++ s) (gs "https://") ||
            hasPrefix ((a :: p') ++ s) (gs "mailto:") ||
            hasPrefix ((a :: p') ++ s) (gs "tel:") ||
            hasPrefix ((a :: p') ++ s) (gs "ftp://") ||
            containsSub ((a :: p') ++ s) (gs "://")) = true) := by
          rw [hBhttp, hBhttps, hBmailto, hBtel, hBftp, hns]
          rw [hpcont] at hprot
          exact hprot
        rw [if_neg hprotL, if_neg hprot]
        dsimp only
        rw [stripFragQuery_append hsharp hquest (by
          rcases hch2 with rfl | rfl
          · exact Or.inl hch
          · exact Or.inr hch)]
        rw [splitFirst_of_not_mem hsharp, splitFirst_of_not_mem hquest]

/-- C10 (counterexample to the claim as stated): a fragment suffix
containing `://` changes resolution — `b.md#sec://x` is treated as an
external scheme and dropped, while the bare `b.md` resolves to
`/d/b.md`, so the suffixed destination does not resolve to the same
absolute path. -/
theorem fragment_scheme_counterexample :
    gs "b.md#sec://x" = gs "b.md" ++ gs "#sec://x" ∧
    processLink unixConv (gs "/d") (gs "b.md#sec://x") = [] ∧
    processLink unixConv (gs "/d") (gs "b.md") = gs "/d/b.md" ∧
    ScanMarkdownLinks unixConv ⟨[gs "b.md#sec://x"], []⟩ (gs "/d") = [] ∧
    ScanMarkdownLinks unixConv ⟨[gs "b.md"], []⟩ (gs "/d") = [gs "/d/b.md"] := by
  refine ⟨by decide, by decide, by decide, by decide, by decide⟩

/-- C10 (amended): `ScanMarkdownLinks` never returns duplicate absolute
paths (even when a target is referenced many times or via both the
structured tree and a raw-HTML href); and a destination carrying a
`#fragment` or `?query` suffix resolves to the same absolute path as the
bare destination *provided the suffixed destination contains no `://`
scheme marker* — fragment and query are stripped before the `.md` check
and resolution, but only after the scheme checks. -/
theorem scanLinks_nodup_and_suffix_invariant :
    (∀ (cv : OsConv) (content : MdContent) (baseDir : GoStr),
      (ScanMarkdownLinks cv content baseDir).Nodup) ∧
    (∀ (cv : OsConv) (baseDir p s : GoStr),
      (cv = unixConv ∨ cv = windowsConv) →
      (s.head? = some '#' ∨ s.head? = some '?') →
      '#' ∉ p → '?' ∉ p →
      containsSub (p ++ s) (gs "://") = false →
      processLink cv baseDir (p ++ s) = processLink cv baseDir p ∧
      ScanMarkdownLinks cv ⟨[p ++ s], []⟩ baseDir =
        ScanMarkdownLinks cv ⟨[p], []⟩ baseDir) := by
  refine ⟨ScanMarkdownLinks_nodup, ?_⟩
  intro cv baseDir p s hcv hhead hsharp hquest hns
  have heq := processLink_suffix_invariant cv baseDir p s hcv hhead hsharp hquest hns
  refine ⟨heq, ?_⟩
  rw [ScanMarkdownLinks, ScanMarkdownLinks]
  simp only [List.map_cons, List.map_nil, heq]

/-- Witness for `scanLinks_nodup_and_suffix_invariant` at a concrete
destination with a scheme-free fragment. -/
theorem scanLinks_suffix_invariant_witness :
    processLink unixConv (gs "/d") (gs "b.md" ++ gs "#sec") =
      processLink unixConv (gs "/d") (gs "b.md") ∧
    (ScanMarkdownLinks unixConv ⟨[gs "x.md"], [gs "x.md"]⟩ (gs "/d")).Nodup :=
  ⟨(scanLinks_nodup_and_suffix_invariant.2 unixConv (gs "/d") (gs "b.md") (gs "#sec")
      (Or.inl rfl) (Or.inl (by decide)) (by decide) (by decide) (by decide)).1,
   scanLinks_nodup_and_suffix_invariant.1 unixConv ⟨[gs "x.md"], [gs "x.md"]⟩ (gs "/d")⟩

/-!  Termination of the BFS loop: each iteration dequeues one entry and
every enqueue claims a not-yet-visited existing path, so the queue
length plus the number of unvisited existing paths strictly decreases.  -/

/-- Generic membership reading of `List.contains`. -/
theorem containsList_iff {α : Type} [BEq α] [LawfulBEq α] {l : List α} {x : α} :
    l.contains x = true ↔ x ∈ l := by
  rw [List.contains_eq_any_beq]
  simp

/-- A pointwise-stronger filter is no longer. -/
theorem filter_length_mono {α : Type} {l : List α} {p q : α → Bool}
    (himp : ∀ x, q x = true → p x = true) :
    (l.filter q).length ≤ (l.filter p).length := by
  induction l with
  | nil => simp
  | cons b t ih =>
    rw [List.filter_cons, List.filter_cons]
    by_cases hq : q b = true
    · rw [if_pos hq, if_pos (himp b hq)]
      simpa using ih
    · rw [if_neg hq]
      by_cases hp : p b = true
      · rw [if_pos hp]
        exact le_trans ih (by simp)
      · rw [if_neg hp]
        exact ih

/-- A pointwise-stronger filter that loses a witness is strictly
shorter. -/
theorem filter_length_lt {α : Type} {l : List α} {p q : α → Bool}
    (himp : ∀ x, q x = true → p x = true) {a : α}
    (ha : a ∈ l) (hpa : p a = true) (hqa : q a = false) :
    (l.filter q).length < (l.filter p).length := by
  induction l with
  | nil => simp at ha
  | cons b t ih =>
    rw [List.filter_cons, List.filter_cons]
    rcases List.mem_cons.mp ha with rfl | hat
    · rw [if_neg (by rw [hqa]; simp), if_pos hpa]
      exact Nat.lt_succ_of_le (filter_length_mono himp)
    · by_cases hq : q b = true
      · rw [if_pos hq, if_pos (himp b hq)]
        simpa using ih hat
      · rw [if_neg hq]
        by_cases hp : p b = true
        · rw [if_pos hp]
          exact lt_of_lt_of_le (ih hat) (by simp)
        · rw [if_neg hp]
          exact ih hat

/-- BFS loop measure: pending queue entries plus unvisited existing
paths. -/
def bfsMeasure (fs : GoFS) (s : BfsState) : Nat :=
  s.queue.length + (fs.statList.filter (fun p => !s.visited.contains p)).length

/-- One enqueue pass never increases the measure over its visited set
and queue. -/
theorem enqueueLinks_measure (fs : GoFS) (mp : Int) (count depth : Nat)
    (links : List GoStr) :
    ∀ vqw : List GoStr × List (GoStr × Nat) × List GoWarning,
    (enqueueLinks fs mp count depth links vqw).2.1.length +
      (fs.statList.filter (fun p => !(enqueueLinks fs mp count depth links vqw).1.contains p)).length ≤
    vqw.2.1.length + (fs.statList.filter (fun p => !vqw.1.contains p)).length := by
  induction links with
  | nil => intro vqw; exact le_refl _
  | cons l rest ih =>
    intro vqw
    rw [enqueueLinks, List.foldl_cons, ← enqueueLinks]
    refine le_trans (ih _) ?_
    by_cases hg : (!vqw.1.contains l && decide ((count : Int) < mp)) = true
    · rw [if_pos hg]
      by_cases hst : (!fs.statOk l) = true
      · rw [if_pos hst]
      · rw [if_neg hst]
        simp only [List.length_append, List.length_cons, List.length_nil]
        have hlt : ((fs.statList.filter
            (fun p => !(vqw.1 ++ [l]).contains p)).length <
            (fs.statList.filter (fun p => !vqw.1.contains p)).length) := by
          refine @filter_length_lt GoStr fs.statList
            (fun p => !vqw.1.contains p) (fun p => !(vqw.1 ++ [l]).contains p) ?_ l ?_ ?_ ?_
          · intro x hx
            show (!vqw.1.contains x) = true
            rw [Bool.not_eq_true'] at hx ⊢
            rw [Bool.eq_false_iff] at hx ⊢
            intro hc
            refine hx ?_
            rw [containsList_iff] at hc ⊢
            exact List.mem_append_left _ hc
          · have hstat : fs.statOk l = true := by
              cases h : fs.statOk l
              · exact absurd (by rw [h]; rfl) hst
              · rfl
            rw [GoFS.statOk, containsList_iff] at hstat
            exact hstat
          · have hg' := hg
            rw [Bool.and_eq_true] at hg'
            exact hg'.1
          · show (!(vqw.1 ++ [l]).contains l) = false
            rw [Bool.not_eq_false']
            rw [containsList_iff]
            exact List.mem_append_right _ (List.mem_singleton.mpr rfl)
        omega
    · rw [if_neg hg]

/-- One BFS iteration on a non-empty queue strictly decreases the
measure. -/
theorem bfsStep_measure (cv : OsConv) (fs : GoFS) (rd : GoStr) (mp : Int)
    (s : BfsState) (hq : s.queue ≠ []) :
    bfsMeasure fs (bfsStep cv fs rd mp s) < bfsMeasure fs s := by
  obtain ⟨g, q, v, w⟩ := s
  cases q with
  | nil => exact absurd rfl hq
  | cons e rest =>
    obtain ⟨p, d⟩ := e
    show bfsMeasure fs (bfsProcess cv fs rd mp p d rest ⟨g, (p, d) :: rest, v, w⟩) < _
    rw [bfsProcess]
    cases hr : fs.read p with
    | none =>
      rw [bfsMeasure, bfsMeasure]
      simp
    | some content =>
      dsimp only
      rw [bfsMeasure, bfsMeasure]
      have := enqueueLinks_measure fs mp
        (((g.AddNode p ((goRel cv rd p).getD p) d).1.setLinks p
          (ScanMarkdownLinks cv content (goDir cv p))).count) d
        (ScanMarkdownLinks cv content (goDir cv p)) (v, rest, w)
      dsimp only at this
      simp only [List.length_cons]
      omega

/-- With fuel at least the measure, the loop runs to a state failing its
guard. -/
theorem bfsLoop_guard_false (cv : OsConv) (fs : GoFS) (rd : GoStr) (mp : Int) :
    ∀ (fuel : Nat) (s : BfsState), bfsMeasure fs s ≤ fuel →
    bfsGuard mp (bfsLoop cv fs rd mp fuel s) = false := by
  intro fuel
  induction fuel with
  | zero =>
    intro s hm
    rw [bfsLoop]
    rw [bfsMeasure] at hm
    have hq : s.queue = [] := List.length_eq_zero.mp (by omega)
    rw [bfsGuard, hq]
    rfl
  | succ n ih =>
    intro s hm
    rw [bfsLoop]
    by_cases hg : bfsGuard mp s = true
    · rw [if_pos hg]
      refine ih _ ?_
      have hq : s.queue ≠ [] := by
        rw [bfsGuard, Bool.and_eq_true] at hg
        intro hnil
        rw [hnil] at hg
        simp at hg
      have := bfsStep_measure cv fs rd mp s hq
      omega
    · rw [if_neg hg]
      exact Bool.not_eq_true _ ▸ hg

/-- A state failing the guard is a fixed point of the loop. -/
theorem bfsLoop_fixed (cv : OsConv) (fs : GoFS) (rd : GoStr) (mp : Int)
    (s : BfsState) (hg : bfsGuard mp s = false) (n : Nat) :
    bfsLoop cv fs rd mp n s = s := by
  cases n with
  | zero => rfl
  | succ m =>
    rw [bfsLoop, if_neg (by rw [hg]; simp)]

/-- Extra fuel beyond the measure never changes the loop result: the
BFS genuinely terminates. -/
theorem bfsLoop_stable (cv : OsConv) (fs : GoFS) (rd : GoStr) (mp : Int) :
    ∀ (fuel : Nat) (s : BfsState), bfsMeasure fs s ≤ fuel →
    ∀ extra : Nat, bfsLoop cv fs rd mp (fuel + extra) s = bfsLoop cv fs rd mp fuel s := by
  intro fuel
  induction fuel with
  | zero =>
    intro s hm extra
    rw [bfsLoop]
    rw [bfsMeasure] at hm
    have hq : s.queue = [] := List.length_eq_zero.mp (by omega)
    exact bfsLoop_fixed cv fs rd mp s (by rw [bfsGuard, hq]; rfl) _
  | succ n ih =>
    intro s hm extra
    by_cases hg : bfsGuard mp s = true
    · rw [show n + 1 + extra = (n + extra) + 1 from by omega]
      rw [bfsLoop, if_pos hg, bfsLoop, if_pos hg]
      have hq : s.queue ≠ [] := by
        rw [bfsGuard, Bool.and_eq_true] at hg
        intro hnil
        rw [hnil] at hg
        simp at hg
      refine ih _ ?_ extra
      have := bfsStep_measure cv fs rd mp s hq
      omega
    · rw [Bool.not_eq_true] at hg
      rw [bfsLoop_fixed cv fs rd mp s hg, bfsLoop_fixed cv fs rd mp s hg]

/-- The canonical fuel bounds the initial measure. -/
theorem initState_measure_le (fs : GoFS) (rootPath : GoStr) :
    bfsMeasure fs (initState rootPath) ≤ buildGraphFuel fs := by
  rw [bfsMeasure, initState, buildGraphFuel]
  have := List.length_filter_le (fun p => !([rootPath] : List GoStr).contains p) fs.statList
  simp only [List.length_cons, List.length_nil]
  omega

/-!  C7: a three-document cycle terminates with exactly three nodes.  -/

/-- Three-document cycle `a → b → c → a` on a forward-slash host. -/
def cycleFS : GoFS :=
  ⟨[gs "/d/a.md", gs "/d/b.md", gs "/d/c.md"],
   [(gs "/d/a.md", ⟨[gs "b.md"], []⟩),
    (gs "/d/b.md", ⟨[gs "c.md"], []⟩),
    (gs "/d/c.md", ⟨[gs "a.md"], []⟩)]⟩

/-- Enqueue pass over one fresh, existing link under the page limit. -/
theorem enqueueLinks_one_fresh (fs : GoFS) (mp : Int) (count depth : Nat) (l : GoStr)
    (v : List GoStr) (q : List (GoStr × Nat)) (w : List GoWarning)
    (hl : v.contains l = false) (hcnt : ((count : Nat) : Int) < mp)
    (hst : fs.statOk l = true) :
    enqueueLinks fs mp count depth [l] (v, q, w) = (v ++ [l], q ++ [(l, depth + 1)], w) := by
  rw [enqueueLinks, List.foldl_cons, List.foldl_nil]
  rw [if_pos (by rw [hl]; simp only [Bool.not_false, Bool.true_and]; exact decide_eq_true hcnt)]
  rw [if_neg (by rw [hst]; simp)]

/-- Enqueue pass over one already-visited link: nothing changes. -/
theorem enqueueLinks_one_visited (fs : GoFS) (mp : Int) (count depth : Nat) (l : GoStr)
    (v : List GoStr) (q : List (GoStr × Nat)) (w : List GoWarning)
    (hl : v.contains l = true) :
    enqueueLinks fs mp count depth [l] (v, q, w) = (v, q, w) := by
  rw [enqueueLinks, List.foldl_cons, List.foldl_nil]
  rw [if_neg (by rw [hl]; simp)]

/-- C7: for the 3-document cycle `a → b → c → a`, `BuildGraph` with any
`maxPages ≥ 3` terminates — extra loop fuel never changes the result —
and returns exactly the three nodes, each holding the absolute path of
its correct successor, including `c`'s edge back to `a`. -/
theorem cycle_terminates_three_nodes (mp : Int) (hmp : 3 ≤ mp) :
    BuildGraph unixConv cycleFS (gs "/d/a.md") mp =
      .ok ⟨⟨gs "/d/a.md",
            [⟨gs "/d/a.md", gs "a.md", [gs "/d/b.md"], 0⟩,
             ⟨gs "/d/b.md", gs "b.md", [gs "/d/c.md"], 1⟩,
             ⟨gs "/d/c.md", gs "c.md", [gs "/d/a.md"], 2⟩], 3⟩,
           [], []⟩ ∧
    (∀ extra : Nat,
      bfsLoop unixConv cycleFS (gs "/d") mp (buildGraphFuel cycleFS + extra)
          (initState (gs "/d/a.md")) =
        bfsLoop unixConv cycleFS (gs "/d") mp (buildGraphFuel cycleFS)
          (initState (gs "/d/a.md"))) := by
  have h0 : ((0 : Nat) : Int) < mp := by omega
  have h1 : ((1 : Nat) : Int) < mp := by omega
  have h2 : ((2 : Nat) : Int) < mp := by omega
  have hstep0 : bfsStep unixConv cycleFS (gs "/d") mp (initState (gs "/d/a.md")) =
      ⟨⟨gs "/d/a.md", [⟨gs "/d/a.md", gs "a.md", [gs "/d/b.md"], 0⟩], 1⟩,
       [(gs "/d/b.md", 1)], [gs "/d/a.md", gs "/d/b.md"], []⟩ := by
    show bfsProcess unixConv cycleFS (gs "/d") mp (gs "/d/a.md") 0 [] (initState (gs "/d/a.md")) = _
    rw [bfsProcess]
    rw [show cycleFS.read (gs "/d/a.md") = some ⟨[gs "b.md"], []⟩ from by decide]
    dsimp only [initState]
    rw [show ScanMarkdownLinks unixConv ⟨[gs "b.md"], []⟩ (goDir unixConv (gs "/d/a.md")) =
      [gs "/d/b.md"] from by decide]
    rw [show (⟨gs "/d/a.md", [], 0⟩ : GoGraph).AddNode (gs "/d/a.md")
        ((goRel unixConv (gs "/d") (gs "/d/a.md")).getD (gs "/d/a.md")) 0 =
        (⟨gs "/d/a.md", [⟨gs "/d/a.md", gs "a.md", [], 0⟩], 1⟩,
         ⟨gs "/d/a.md", gs "a.md", [], 0⟩) from by decide]
    dsimp only
    rw [show (⟨gs "/d/a.md", [⟨gs "/d/a.md", gs "a.md", [], 0⟩], 1⟩ : GoGraph).setLinks
        (gs "/d/a.md") [gs "/d/b.md"] =
        ⟨gs "/d/a.md", [⟨gs "/d/a.md", gs "a.md", [gs "/d/b.md"], 0⟩], 1⟩ from by decide]
    dsimp only
    rw [enqueueLinks_one_fresh cycleFS mp 1 0 (gs "/d/b.md") [gs "/d/a.md"] [] []
      (by decide) h1 (by decide)]
    decide
  have hstep1 : bfsStep unixConv cycleFS (gs "/d") mp
      ⟨⟨gs "/d/a.md", [⟨gs "/d/a.md", gs "a.md", [gs "/d/b.md"], 0⟩], 1⟩,
       [(gs "/d/b.md", 1)], [gs "/d/a.md", gs "/d/b.md"], []⟩ =
      ⟨⟨gs "/d/a.md", [⟨gs "/d/a.md", gs "a.md", [gs "/d/b.md"], 0⟩,
                       ⟨gs "/d/b.md", gs "b.md", [gs "/d/c.md"], 1⟩], 2⟩,
       [(gs "/d/c.md", 2)], [gs "/d/a.md", gs "/d/b.md", gs "/d/c.md"], []⟩ := by
    show bfsProcess unixConv cycleFS (gs "/d") mp (gs "/d/b.md") 1 [] _ = _
    rw [bfsProcess]
    rw [show cycleFS.read (gs "/d/b.md") = some ⟨[gs "c.md"], []⟩ from by decide]
    dsimp only
    rw [show ScanMarkdownLinks unixConv ⟨[gs "c.md"], []⟩ (goDir unixConv (gs "/d/b.md")) =
      [gs "/d/c.md"] from by decide]
    rw [show (⟨gs "/d/a.md", [⟨gs "/d/a.md", gs "a.md", [gs "/d/b.md"], 0⟩], 1⟩ : GoGraph).AddNode
        (gs "/d/b.md") ((goRel unixConv (gs "/d") (gs "/d/b.md")).getD (gs "/d/b.md")) 1 =
        (⟨gs "/d/a.md", [⟨gs "/d/a.md", gs "a.md", [gs "/d/b.md"], 0⟩,
                         ⟨gs "/d/b.md", gs "b.md", [], 1⟩], 2⟩,
         ⟨gs "/d/b.md", gs "b.md", [], 1⟩) from by decide]
    dsimp only
    rw [show (⟨gs "/d/a.md", [⟨gs "/d/a.md", gs "a.md", [gs "/d/b.md"], 0⟩,
                              ⟨gs "/d/b.md", gs "b.md", [], 1⟩], 2⟩ : GoGraph).setLinks
        (gs "/d/b.md") [gs "/d/c.md"] =
        ⟨gs "/d/a.md", [⟨gs "/d/a.md", gs "a.md", [gs "/d/b.md"], 0⟩,
                        ⟨gs "/d/b.md", gs "b.md", [gs "/d/c.md"], 1⟩], 2⟩ from by decide]
    dsimp only
    rw [enqueueLinks_one_fresh cycleFS mp 2 1 (gs "/d/c.md")
      [gs "/d/a.md", gs "/d/b.md"] [] [] (by decide) h2 (by decide)]
    decide
  have hstep2 : bfsStep unixConv cycleFS (gs "/d") mp
      ⟨⟨gs "/d/a.md", [⟨gs "/d/a.md", gs "a.md", [gs "/d/b.md"], 0⟩,
                       ⟨gs "/d/b.md", gs "b.md", [gs "/d/c.md"], 1⟩], 2⟩,
       [(gs "/d/c.md", 2)], [gs "/d/a.md", gs "/d/b.md", gs "/d/c.md"], []⟩ =
      ⟨⟨gs "/d/a.md", [⟨gs "/d/a.md", gs "a.md", [gs "/d/b.md"], 0⟩,
                       ⟨gs "/d/b.md", gs "b.md", [gs "/d/c.md"], 1⟩,
                       ⟨gs "/d/c.md", gs "c.md", [gs "/d/a.md"], 2⟩], 3⟩,
       [], [gs "/d/a.md", gs "/d/b.md", gs "/d/c.md"], []⟩ := by
    show bfsProcess unixConv cycleFS (gs "/d") mp (gs "/d/c.md") 2 [] _ = _
    rw [bfsProcess]
    rw [show cycleFS.read (gs "/d/c.md") = some ⟨[gs "a.md"], []⟩ from by decide]
    dsimp only
    rw [show ScanMarkdownLinks unixConv ⟨[gs "a.md"], []⟩ (goDir unixConv (gs "/d/c.md")) =
      [gs "/d/a.md"] from by decide]
    rw [show (⟨gs "/d/a.md", [⟨gs "/d/a.md", gs "a.md", [gs "/d/b.md"], 0⟩,
                              ⟨gs "/d/b.md", gs "b.md", [gs "/d/c.md"], 1⟩], 2⟩ : GoGraph).AddNode
        (gs "/d/c.md") ((goRel unixConv (gs "/d") (gs "/d/c.md")).getD (gs "/d/c.md")) 2 =
        (⟨gs "/d/a.md", [⟨gs "/d/a.md", gs "a.md", [gs "/d/b.md"], 0⟩,
                         ⟨gs "/d/b.md", gs "b.md", [gs "/d/c.md"], 1⟩,
                         ⟨gs "/d/c.md", gs "c.md", [], 2⟩], 3⟩,
         ⟨gs "/d/c.md", gs "c.md", [], 2⟩) from by decide]
    dsimp only
    rw [show (⟨gs "/d/a.md", [⟨gs "/d/a.md", gs "a.md", [gs "/d/b.md"], 0⟩,
                              ⟨gs "/d/b.md", gs "b.md", [gs "/d/c.md"], 1⟩,
                              ⟨gs "/d/c.md", gs "c.md", [], 2⟩], 3⟩ : GoGraph).setLinks
        (gs "/d/c.md") [gs "/d/a.md"] =
        ⟨gs "/d/a.md", [⟨gs "/d/a.md", gs "a.md", [gs "/d/b.md"], 0⟩,
                        ⟨gs "/d/b.md", gs "b.md", [gs "/d/c.md"], 1⟩,
                        ⟨gs "/d/c.md", gs "c.md", [gs "/d/a.md"], 2⟩], 3⟩ from by decide]
    dsimp only
    rw [enqueueLinks_one_visited cycleFS mp 3 2 (gs "/d/a.md")
      [gs "/d/a.md", gs "/d/b.md", gs "/d/c.md"] [] [] (by decide)]
  have hg0 : bfsGuard mp (initState (gs "/d/a.md")) = true := by
    rw [bfsGuard]
    rw [show (initState (gs "/d/a.md")).queue.isEmpty = false from rfl]
    rw [show (initState (gs "/d/a.md")).graph.count = 0 from rfl]
    simp only [Bool.not_false, Bool.true_and]
    exact decide_eq_true h0
  have hg1 : bfsGuard mp
      ⟨⟨gs "/d/a.md", [⟨gs "/d/a.md", gs "a.md", [gs "/d/b.md"], 0⟩], 1⟩,
       [(gs "/d/b.md", 1)], [gs "/d/a.md", gs "/d/b.md"], []⟩ = true := by
    rw [bfsGuard]
    dsimp only
    simp only [List.isEmpty_cons, Bool.not_false, Bool.true_and]
    exact decide_eq_true h1
  have hg2 : bfsGuard mp
      ⟨⟨gs "/d/a.md", [⟨gs "/d/a.md", gs "a.md", [gs "/d/b.md"], 0⟩,
                       ⟨gs "/d/b.md", gs "b.md", [gs "/d/c.md"], 1⟩], 2⟩,
       [(gs "/d/c.md", 2)], [gs "/d/a.md", gs "/d/b.md", gs "/d/c.md"], []⟩ = true := by
    rw [bfsGuard]
    dsimp only
    simp only [List.isEmpty_cons, Bool.not_false, Bool.true_and]
    exact decide_eq_true h2
  have hrun : bfsLoop unixConv cycleFS (gs "/d") mp 4 (initState (gs "/d/a.md")) =
      ⟨⟨gs "/d/a.md", [⟨gs "/d/a.md", gs "a.md", [gs "/d/b.md"], 0⟩,
                       ⟨gs "/d/b.md", gs "b.md", [gs "/d/c.md"], 1⟩,
                       ⟨gs "/d/c.md", gs "c.md", [gs "/d/a.md"], 2⟩], 3⟩,
       [], [gs "/d/a.md", gs "/d/b.md", gs "/d/c.md"], []⟩ := by
    rw [show (4 : Nat) = 3 + 1 from rfl, bfsLoop, if_pos hg0, hstep0]
    rw [show (3 : Nat) = 2 + 1 from rfl, bfsLoop, if_pos hg1, hstep1]
    rw [show (2 : Nat) = 1 + 1 from rfl, bfsLoop, if_pos hg2, hstep2]
    rw [show (1 : Nat) = 0 + 1 from rfl, bfsLoop]
    rw [if_neg (show ¬ (bfsGuard mp
      ⟨⟨gs "/d/a.md", [⟨gs "/d/a.md", gs "a.md", [gs "/d/b.md"], 0⟩,
                       ⟨gs "/d/b.md", gs "b.md", [gs "/d/c.md"], 1⟩,
                       ⟨gs "/d/c.md", gs "c.md", [gs "/d/a.md"], 2⟩], 3⟩,
       [], [gs "/d/a.md", gs "/d/b.md", gs "/d/c.md"], []⟩ = true) from by
      rw [bfsGuard]; simp)]
  constructor
  · rw [BuildGraph]
    rw [if_neg (show ¬ ((!cycleFS.statOk (gs "/d/a.md")) = true) from by decide)]
    dsimp only
    rw [show goDir unixConv (gs "/d/a.md") = gs "/d" from by decide]
    rw [show buildGraphFuel cycleFS = 4 from by decide]
    rw [hrun]
    dsimp only
    simp only [List.isEmpty_nil, Bool.not_true]
    rw [if_neg (show ¬ ((false : Bool) = true) from by decide)]
  · intro extra
    exact bfsLoop_stable unixConv cycleFS (gs "/d") mp (buildGraphFuel cycleFS)
      (initState (gs "/d/a.md")) (initState_measure_le cycleFS (gs "/d/a.md")) extra

/-- Witness for `cycle_terminates_three_nodes` at `maxPages = 3`. -/
theorem cycle_terminates_three_nodes_witness :
    BuildGraph unixConv cycleFS (gs "/d/a.md") 3 =
      .ok ⟨⟨gs "/d/a.md",
            [⟨gs "/d/a.md", gs "a.md", [gs "/d/b.md"], 0⟩,
             ⟨gs "/d/b.md", gs "b.md", [gs "/d/c.md"], 1⟩,
             ⟨gs "/d/c.md", gs "c.md", [gs "/d/a.md"], 2⟩], 3⟩,
           [], []⟩ :=
  (cycle_terminates_three_nodes 3 (by omega)).1

/-!  C6: structural invariants of the graph `BuildGraph` returns.  The
discovery distance is measured along the link relation the BFS actually
explores: an edge leads from a readable file to each scanned link whose
target exists.  -/

/-- `ReachesN n p`: the file `p` is discoverable from the root in `n`
link steps — each step goes from a readable markdown file to one of its
scanned links whose target exists on disk. -/
inductive ReachesN (cv : OsConv) (fs : GoFS) (root : GoStr) : Nat → GoStr → Prop where
  | zero : ReachesN cv fs root 0 root
  | succ {n : Nat} {q p : GoStr} {L : List GoStr} :
      linksOf cv fs q = some L → p ∈ L → fs.statOk p = true →
      ReachesN cv fs root n q → ReachesN cv fs root (n + 1) p

/-- `List.contains` agrees with membership on `GoStr` lists. -/
theorem gocontains_iff {xs : List GoStr} {a : GoStr} : xs.contains a = true ↔ a ∈ xs :=
  List.elem_iff

/-- A pairwise property holds for any list when the relation is total. -/
theorem pairwise_of_all {α : Type} {R : α → α → Prop} (h : ∀ a b, R a b) :
    ∀ l : List α, List.Pairwise R l
  | [] => .nil
  | a :: t => .cons (fun b _ => h a b) (pairwise_of_all h t)

/-- The head given by `head?` is a member of the list. -/
theorem head?_mem_of {α : Type} {l : List α} {h : α} (hh : l.head? = some h) : h ∈ l := by
  cases l with
  | nil => exact absurd hh (by simp)
  | cons a t =>
    injection hh with h2
    exact h2 ▸ List.mem_cons_self a t

/-- In a depth-nondecreasing queue the head depth is minimal. -/
theorem pairwise_head_min {Q : List (GoStr × Nat)}
    (hp : List.Pairwise (fun a b => a.2 ≤ b.2) Q) :
    ∀ pd ∈ Q, ∀ h, Q.head? = some h → h.2 ≤ pd.2 := by
  cases Q with
  | nil => intro pd hpd; exact absurd hpd (List.not_mem_nil pd)
  | cons h0 t =>
    intro pd hpd h hh
    injection hh with h2
    subst h2
    rcases List.mem_cons.mp hpd with rfl | hpd
    · exact Nat.le_refl _
    · exact List.rel_of_pairwise_cons hp hpd

/-- `setLinks` preserves every node's path and depth. -/
theorem setLinks_pathDepth (g : GoGraph) (p : GoStr) (L : List GoStr) :
    (g.setLinks p L).nodes.map (fun n => (n.path, n.depth)) =
      g.nodes.map (fun n => (n.path, n.depth)) := by
  rw [GoGraph.setLinks]
  rw [List.map_map]
  apply List.map_congr_left
  intro n _
  dsimp only [Function.comp_apply]
  by_cases h : (n.path == p) = true
  · rw [if_pos h]
  · rw [if_neg h]

/-- `setLinks` preserves the list of node paths. -/
theorem setLinks_paths (g : GoGraph) (p : GoStr) (L : List GoStr) :
    (g.setLinks p L).nodes.map GoNode.path = g.nodes.map GoNode.path := by
  rw [GoGraph.setLinks]
  rw [List.map_map]
  apply List.map_congr_left
  intro n _
  dsimp only [Function.comp_apply]
  by_cases h : (n.path == p) = true
  · rw [if_pos h]
  · rw [if_neg h]

/-- `setLinks` keeps the node count. -/
theorem setLinks_count (g : GoGraph) (p : GoStr) (L : List GoStr) :
    (g.setLinks p L).count = g.count := rfl

/-- `setLinks` keeps the number of nodes. -/
theorem setLinks_length (g : GoGraph) (p : GoStr) (L : List GoStr) :
    (g.setLinks p L).nodes.length = g.nodes.length := by
  rw [GoGraph.setLinks]
  exact List.length_map _ _

/-- A path absent from the node list is not found by `AddNode`'s lookup. -/
theorem find?_path_none (g : GoGraph) (p : GoStr)
    (h : ¬ p ∈ g.nodes.map GoNode.path) :
    g.nodes.find? (fun n => n.path == p) = none := by
  apply List.find?_eq_none.mpr
  intro n hn hbeq
  exact h (beq_iff_eq.mp hbeq ▸ List.mem_map_of_mem GoNode.path hn)

/-- `AddNode` on an absent path appends a fresh node and bumps the count. -/
theorem AddNode_fresh (g : GoGraph) (p r : GoStr) (d : Nat)
    (h : g.nodes.find? (fun n => n.path == p) = none) :
    g.AddNode p r d =
      (⟨g.root, g.nodes ++ [⟨p, r, [], d⟩], g.count + 1⟩, ⟨p, r, [], d⟩) := by
  rw [GoGraph.AddNode, h]

/-- One step of the enqueue fold. -/
theorem enqueueLinks_cons (fs : GoFS) (mp : Int) (count depth : Nat) (l : GoStr)
    (L : List GoStr) (v : List GoStr) (q : List (GoStr × Nat)) (w : List GoWarning) :
    enqueueLinks fs mp count depth (l :: L) (v, q, w) =
      enqueueLinks fs mp count depth L
        (if !v.contains l && decide ((count : Int) < mp) then
          (if !fs.statOk l then (v, q, w ++ [.linkMissing l])
           else (v ++ [l], q ++ [(l, depth + 1)], w))
         else (v, q, w)) := by
  simp only [enqueueLinks, List.foldl_cons]

/-- What the enqueue pass does: it appends some sublist of fresh,
existing links to both the visited set and the queue (at the child
depth), and under the page limit it covers every existing link. -/
theorem enqueueLinks_spec (fs : GoFS) (mp : Int) (count depth : Nat) :
    ∀ (L : List GoStr) (v : List GoStr) (q : List (GoStr × Nat)) (w : List GoWarning),
    ∃ added : List GoStr,
      (enqueueLinks fs mp count depth L (v, q, w)).1 = v ++ added ∧
      (enqueueLinks fs mp count depth L (v, q, w)).2.1 =
        q ++ added.map (fun l => (l, depth + 1)) ∧
      added.Nodup ∧
      (∀ l ∈ added, l ∈ L ∧ ¬ l ∈ v ∧ fs.statOk l = true) ∧
      ((count : Int) < mp → ∀ l ∈ L, fs.statOk l = true → l ∈ v ++ added) := by
  intro L
  induction L with
  | nil =>
    intro v q w
    refine ⟨[], by simp [enqueueLinks], by simp [enqueueLinks], List.nodup_nil, ?_, ?_⟩
    · intro l hl; exact absurd hl (List.not_mem_nil l)
    · intro _ l hl; exact absurd hl (List.not_mem_nil l)
  | cons l L ih =>
    intro v q w
    rw [enqueueLinks_cons]
    cases hv : v.contains l with
    | true =>
      have hcond : (!true && decide ((count : Int) < mp)) = false := rfl
      rw [hcond]
      rw [if_neg (show ¬ ((false : Bool) = true) from by decide)]
      obtain ⟨ad, h1, h2, hnd, hprops, hcov⟩ := ih v q w
      refine ⟨ad, h1, h2, hnd, ?_, ?_⟩
      · intro x hx
        obtain ⟨hxl, hxv, hxs⟩ := hprops x hx
        exact ⟨List.mem_cons_of_mem l hxl, hxv, hxs⟩
      · intro hcm x hx hxs
        rcases List.mem_cons.mp hx with rfl | hx
        · exact List.mem_append_left ad (gocontains_iff.mp hv)
        · exact hcov hcm x hx hxs
    | false =>
      have hlv : ¬ l ∈ v := fun hm => by
        rw [gocontains_iff.mpr hm] at hv
        exact Bool.noConfusion hv
      by_cases hc : (count : Int) < mp
      · have hcond : (!false && decide ((count : Int) < mp)) = true := by
          rw [decide_eq_true hc]; rfl
        rw [hcond, if_pos rfl]
        cases hs : fs.statOk l with
        | false =>
          rw [if_pos (show (!false : Bool) = true from rfl)]
          obtain ⟨ad, h1, h2, hnd, hprops, hcov⟩ := ih v q (w ++ [.linkMissing l])
          refine ⟨ad, h1, h2, hnd, ?_, ?_⟩
          · intro x hx
            obtain ⟨hxl, hxv, hxs⟩ := hprops x hx
            exact ⟨List.mem_cons_of_mem l hxl, hxv, hxs⟩
          · intro hcm x hx hxs
            rcases List.mem_cons.mp hx with rfl | hx
            · rw [hs] at hxs; exact absurd hxs (by decide)
            · exact hcov hcm x hx hxs
        | true =>
          rw [show (!true : Bool) = false from rfl]
          rw [if_neg (show ¬ ((false : Bool) = true) from by decide)]
          obtain ⟨ad, h1, h2, hnd, hprops, hcov⟩ := ih (v ++ [l]) (q ++ [(l, depth + 1)]) w
          refine ⟨l :: ad, ?_, ?_, ?_, ?_, ?_⟩
          · rw [h1]; simp
          · rw [h2]; simp
          · refine List.nodup_cons.mpr ⟨?_, hnd⟩
            intro hlad
            exact (hprops l hlad).2.1 (List.mem_append_right v (List.mem_singleton.mpr rfl))
          · intro x hx
            rcases List.mem_cons.mp hx with rfl | hx
            · exact ⟨List.mem_cons_self x L, hlv, hs⟩
            · obtain ⟨hxl, hxv, hxs⟩ := hprops x hx
              exact ⟨List.mem_cons_of_mem l hxl,
                fun hm => hxv (List.mem_append_left [l] hm), hxs⟩
          · intro hcm x hx hxs
            rcases List.mem_cons.mp hx with rfl | hx
            · exact List.mem_append_right v (List.mem_cons_self x ad)
            · have hmem := hcov hcm x hx hxs
              rw [List.append_assoc] at hmem
              exact hmem
      · have hcond : (!false && decide ((count : Int) < mp)) = false := by
          rw [decide_eq_false hc]; rfl
        rw [hcond]
        rw [if_neg (show ¬ ((false : Bool) = true) from by decide)]
        obtain ⟨ad, h1, h2, hnd, hprops, hcov⟩ := ih v q w
        refine ⟨ad, h1, h2, hnd, ?_, ?_⟩
        · intro x hx
          obtain ⟨hxl, hxv, hxs⟩ := hprops x hx
          exact ⟨List.mem_cons_of_mem l hxl, hxv, hxs⟩
        · intro hcm
          exact absurd hcm hc

/-- The invariants the BFS loop maintains: the graph is consistent
(count matches the node list, no duplicate paths, count within the page
limit), the queue and node paths sit inside the visited set and are
duplicate-free, queue depths are nondecreasing and within one level of
the head, every queued entry and every node carries its exact minimal
discovery distance, and — while the page limit is not yet reached —
every processed file has all its existing links visited and every file
within the head distance is visited. -/
structure BfsInv (cv : OsConv) (fs : GoFS) (root : GoStr) (mp : Int) (s : BfsState) : Prop where
  hcount : s.graph.count = s.graph.nodes.length
  hnodup : (s.graph.nodes.map GoNode.path).Nodup
  hcap : (s.graph.count : Int) ≤ mp
  hQV : ∀ pd ∈ s.queue, pd.1 ∈ s.visited
  hNV : ∀ n ∈ s.graph.nodes, n.path ∈ s.visited
  hQdup : (s.queue.map Prod.fst).Nodup
  hQN : ∀ pd ∈ s.queue, ¬ pd.1 ∈ s.graph.nodes.map GoNode.path
  hpair : List.Pairwise (fun a b => a.2 ≤ b.2) s.queue
  hsand : ∀ pd ∈ s.queue, ∀ h, s.queue.head? = some h → pd.2 ≤ h.2 + 1
  hsoundQ : ∀ pd ∈ s.queue, fs.statOk pd.1 = true ∧ ReachesN cv fs root pd.2 pd.1 ∧
    ∀ m, ReachesN cv fs root m pd.1 → pd.2 ≤ m
  hsoundN : ∀ n ∈ s.graph.nodes, ReachesN cv fs root n.depth n.path ∧
    ∀ m, ReachesN cv fs root m n.path → n.depth ≤ m
  hE : (s.graph.count : Int) < mp → ∀ v ∈ s.visited, ¬ v ∈ s.queue.map Prod.fst →
    ∀ L, linksOf cv fs v = some L → ∀ l ∈ L, fs.statOk l = true → l ∈ s.visited
  hC1 : (s.graph.count : Int) < mp → ∀ m p, ReachesN cv fs root m p →
    (∀ h, s.queue.head? = some h → m ≤ h.2) → p ∈ s.visited

/-- The BFS frontier argument: if everything within distance `d0` is
visited, processed files have their links covered, and queued entries
carry minimal depths bounded below by the head depth, then everything
within the head depth is visited. -/
theorem C1_of_inv (cv : OsConv) (fs : GoFS) (root : GoStr) (V : List GoStr)
    (Q : List (GoStr × Nat)) (d0 : Nat)
    (hbase : ∀ m p, ReachesN cv fs root m p → m ≤ d0 → p ∈ V)
    (hEv : ∀ v ∈ V, ¬ v ∈ Q.map Prod.fst →
      ∀ L, linksOf cv fs v = some L → ∀ l ∈ L, fs.statOk l = true → l ∈ V)
    (hsq : ∀ pd ∈ Q, ∀ m, ReachesN cv fs root m pd.1 → pd.2 ≤ m)
    (hmin : ∀ pd ∈ Q, ∀ h, Q.head? = some h → h.2 ≤ pd.2) :
    ∀ m p, ReachesN cv fs root m p → (∀ h, Q.head? = some h → m ≤ h.2) → p ∈ V := by
  intro m
  induction m using Nat.strong_induction_on with
  | _ m IH =>
    intro p hm hbound
    by_cases hmd : m ≤ d0
    · exact hbase m p hm hmd
    · cases hm with
      | zero => exact absurd (Nat.zero_le d0) hmd
      | @succ n q _ L hL hmem hst hqreach =>
        have hqV : q ∈ V := by
          by_cases hnd : n ≤ d0
          · exact hbase n q hqreach hnd
          · exact IH n (Nat.lt_succ_self n) q hqreach
              (fun h hh => Nat.le_of_succ_le (hbound h hh))
        have hqnotQ : ¬ q ∈ Q.map Prod.fst := by
          intro hqQ
          obtain ⟨pd, hpdQ, hpdq⟩ := List.mem_map.mp hqQ
          cases hhead : Q.head? with
          | none =>
            rw [List.head?_eq_none_iff] at hhead
            rw [hhead] at hpdQ
            exact absurd hpdQ (List.not_mem_nil pd)
          | some h0 =>
            have h1 : h0.2 ≤ pd.2 := hmin pd hpdQ h0 hhead
            have h2 : pd.2 ≤ n := hsq pd hpdQ n (by rw [hpdq]; exact hqreach)
            have h3 : n + 1 ≤ h0.2 := hbound h0 hhead
            omega
        exact hEv q hqV hqnotQ L hL _ hmem hst

/-- The initial BFS state satisfies all loop invariants. -/
theorem initState_inv (cv : OsConv) (fs : GoFS) (root : GoStr) (mp : Int)
    (hmp : 0 ≤ mp) (hroot : fs.statOk root = true) :
    BfsInv cv fs root mp (initState root) := by
  apply BfsInv.mk <;> dsimp only [initState]
  · rfl
  · exact List.nodup_nil
  · exact_mod_cast hmp
  · intro pd hpd
    rw [List.mem_singleton] at hpd
    rw [hpd]
    exact List.mem_singleton.mpr rfl
  · intro n hn
    exact absurd hn (List.not_mem_nil n)
  · simp
  · intro pd hpd
    simp
  · exact List.pairwise_singleton _ _
  · intro pd hpd h hh
    rw [List.mem_singleton] at hpd
    injection hh with h2
    rw [hpd, ← h2]
    exact Nat.le_succ 0
  · intro pd hpd
    rw [List.mem_singleton] at hpd
    rw [hpd]
    exact ⟨hroot, .zero, fun m _ => Nat.zero_le m⟩
  · intro n hn
    exact absurd hn (List.not_mem_nil n)
  · intro _ v hv hnq
    rw [List.mem_singleton] at hv
    rw [hv] at hnq
    exact absurd (by simp) hnq
  · intro _ m p hm hbound
    have h0 : m ≤ 0 := hbound (root, 0) rfl
    have hm0 : m = 0 := Nat.le_zero.mp h0
    rw [hm0] at hm
    cases hm
    simp

/-- Membership in the freshly enqueued block determines path and depth. -/
theorem mem_map_depth {added : List GoStr} {d : Nat} {pd : GoStr × Nat}
    (h : pd ∈ added.map (fun l => (l, d))) : pd.1 ∈ added ∧ pd.2 = d := by
  obtain ⟨l, hl, heq⟩ := List.mem_map.mp h
  rw [← heq]
  exact ⟨hl, rfl⟩

/-- Projecting the paths back out of the freshly enqueued block. -/
theorem map_fst_depth (added : List GoStr) (d : Nat) :
    (added.map (fun l => (l, d))).map Prod.fst = added := by
  rw [List.map_map]
  rw [show (Prod.fst ∘ fun l => (l, d)) = id from rfl]
  exact List.map_id added

/-- Path/depth pairs of the graph after one readable dequeue. -/
theorem step_graph_pd (g : GoGraph) (p r : GoStr) (d : Nat) (L : List GoStr) :
    ((⟨g.root, g.nodes ++ [⟨p, r, [], d⟩], g.count + 1⟩ : GoGraph).setLinks p L).nodes.map
        (fun n => (n.path, n.depth)) =
      g.nodes.map (fun n => (n.path, n.depth)) ++ [(p, d)] := by
  rw [setLinks_pathDepth]
  dsimp only
  rw [List.map_append]
  rfl

/-- Paths of the graph after one readable dequeue. -/
theorem step_graph_paths (g : GoGraph) (p r : GoStr) (d : Nat) (L : List GoStr) :
    ((⟨g.root, g.nodes ++ [⟨p, r, [], d⟩], g.count + 1⟩ : GoGraph).setLinks p L).nodes.map
        GoNode.path = g.nodes.map GoNode.path ++ [p] := by
  rw [setLinks_paths]
  dsimp only
  rw [List.map_append]
  rfl

/-- Node count of the graph after one readable dequeue. -/
theorem step_graph_len (g : GoGraph) (p r : GoStr) (d : Nat) (L : List GoStr) :
    ((⟨g.root, g.nodes ++ [⟨p, r, [], d⟩], g.count + 1⟩ : GoGraph).setLinks p L).nodes.length =
      g.nodes.length + 1 := by
  rw [setLinks_length]
  dsimp only
  rw [List.length_append]
  rfl

/-- Count field of the graph after one readable dequeue. -/
theorem step_graph_count (g : GoGraph) (p r : GoStr) (d : Nat) (L : List GoStr) :
    ((⟨g.root, g.nodes ++ [⟨p, r, [], d⟩], g.count + 1⟩ : GoGraph).setLinks p L).count =
      g.count + 1 := rfl

/-- One BFS iteration preserves every loop invariant. -/
theorem bfsStep_inv (cv : OsConv) (fs : GoFS) (rootDir root : GoStr) (mp : Int)
    (s : BfsState) (hinv : BfsInv cv fs root mp s) (hg : bfsGuard mp s = true) :
    BfsInv cv fs root mp (bfsStep cv fs rootDir mp s) := by
  obtain ⟨g, Q, V, W⟩ := s
  cases Q with
  | nil =>
    rw [bfsGuard] at hg
    simp at hg
  | cons pd rest =>
    obtain ⟨p0, d0⟩ := pd
    have hcnt : (g.count : Int) < mp := by
      rw [bfsGuard, Bool.and_eq_true] at hg
      exact of_decide_eq_true hg.2
    have hcount0 : g.count = g.nodes.length := hinv.hcount
    have hp0nN : ¬ p0 ∈ g.nodes.map GoNode.path := hinv.hQN (p0, d0) (List.mem_cons_self _ _)
    have hfind := find?_path_none g p0 hp0nN
    have hp0V : p0 ∈ V := hinv.hQV (p0, d0) (List.mem_cons_self _ _)
    have hp0sQ := hinv.hsoundQ (p0, d0) (List.mem_cons_self _ _)
    have hp0nr : ¬ p0 ∈ rest.map Prod.fst := by
      have h : (((p0, d0) : GoStr × Nat) :: rest).map Prod.fst |>.Nodup := hinv.hQdup
      rw [List.map_cons] at h
      exact (List.nodup_cons.mp h).1
    have hgpathsV : ∀ x ∈ g.nodes.map GoNode.path, x ∈ V := by
      intro x hx
      obtain ⟨n0, hn0, heq⟩ := List.mem_map.mp hx
      rw [← heq]
      exact hinv.hNV n0 hn0
    have hboundold : ∀ (m : Nat), m ≤ d0 → ∀ h : GoStr × Nat,
        ((((p0, d0) : GoStr × Nat)) :: rest).head? = some h → m ≤ h.2 := by
      intro m hmd h hh
      have hh2 : some ((p0, d0) : GoStr × Nat) = some h := hh
      injection hh2 with h2
      rw [← h2]
      exact hmd
    cases hread : fs.read p0 with
    | none =>
      have hstep : bfsStep cv fs rootDir mp ⟨g, (p0, d0) :: rest, V, W⟩ =
          ⟨g, rest, V, W ++ [.readFailed p0]⟩ := by
        show bfsProcess cv fs rootDir mp p0 d0 rest ⟨g, (p0, d0) :: rest, V, W⟩ = _
        rw [bfsProcess, hread]
      rw [hstep]
      have hEnew : ∀ v ∈ V, ¬ v ∈ rest.map Prod.fst → ∀ L, linksOf cv fs v = some L →
          ∀ l ∈ L, fs.statOk l = true → l ∈ V := by
        intro v hvV hvnQ L hL l hl hsl
        by_cases hvp : v = p0
        · subst hvp
          rw [linksOf, hread] at hL
          exact absurd hL (by simp)
        · have hvnQ0 : ¬ v ∈ ((((p0, d0) : GoStr × Nat)) :: rest).map Prod.fst := by
            rw [List.map_cons]
            intro hmem
            rcases List.mem_cons.mp hmem with h' | h'
            · exact hvp h'
            · exact hvnQ h'
          exact hinv.hE hcnt v hvV hvnQ0 L hL l hl hsl
      have hsoundQnew : ∀ pd ∈ rest, fs.statOk pd.1 = true ∧
          ReachesN cv fs root pd.2 pd.1 ∧ ∀ m, ReachesN cv fs root m pd.1 → pd.2 ≤ m :=
        fun pd hpd => hinv.hsoundQ pd (List.mem_cons_of_mem _ hpd)
      have hpairnew : List.Pairwise (fun a b => a.2 ≤ b.2) rest := hinv.hpair.of_cons
      have hC1new : ∀ m p, ReachesN cv fs root m p →
          (∀ h, rest.head? = some h → m ≤ h.2) → p ∈ V :=
        C1_of_inv cv fs root V rest d0
          (fun m p hm hmd => hinv.hC1 hcnt m p hm (hboundold m hmd))
          hEnew
          (fun pd hpd m hm => (hsoundQnew pd hpd).2.2 m hm)
          (pairwise_head_min hpairnew)
      refine ⟨hinv.hcount, hinv.hnodup, hinv.hcap, ?_, hinv.hNV, ?_, ?_, hpairnew, ?_,
          hsoundQnew, hinv.hsoundN, fun _ => hEnew, fun _ => hC1new⟩
      · intro pd hpd
        exact hinv.hQV pd (List.mem_cons_of_mem _ hpd)
      · have h : (((p0, d0) : GoStr × Nat) :: rest).map Prod.fst |>.Nodup := hinv.hQdup
        rw [List.map_cons] at h
        exact (List.nodup_cons.mp h).2
      · intro pd hpd
        exact hinv.hQN pd (List.mem_cons_of_mem _ hpd)
      · intro pd hpd h hh
        have h1 : pd.2 ≤ d0 + 1 := hinv.hsand pd (List.mem_cons_of_mem _ hpd) (p0, d0) rfl
        have h2 : d0 ≤ h.2 := List.rel_of_pairwise_cons hinv.hpair (head?_mem_of hh)
        omega
    | some content =>
      have hstep : bfsStep cv fs rootDir mp ⟨g, (p0, d0) :: rest, V, W⟩ =
          ⟨(⟨g.root, g.nodes ++ [⟨p0, (goRel cv rootDir p0).getD p0, [], d0⟩],
              g.count + 1⟩ : GoGraph).setLinks p0 (ScanMarkdownLinks cv content (goDir cv p0)),
           (enqueueLinks fs mp (g.count + 1) d0 (ScanMarkdownLinks cv content (goDir cv p0))
              (V, rest, W)).2.1,
           (enqueueLinks fs mp (g.count + 1) d0 (ScanMarkdownLinks cv content (goDir cv p0))
              (V, rest, W)).1,
           (enqueueLinks fs mp (g.count + 1) d0 (ScanMarkdownLinks cv content (goDir cv p0))
              (V, rest, W)).2.2⟩ := by
        show bfsProcess cv fs rootDir mp p0 d0 rest ⟨g, (p0, d0) :: rest, V, W⟩ = _
        rw [bfsProcess, hread]
        dsimp only
        rw [AddNode_fresh g p0 ((goRel cv rootDir p0).getD p0) d0 hfind]
        rfl
      rw [hstep]
      obtain ⟨added, hv', hq', hadnd, hprops, hcov⟩ :=
        enqueueLinks_spec fs mp (g.count + 1) d0
          (ScanMarkdownLinks cv content (goDir cv p0)) V rest W
      rw [hv', hq']
      have hlinksp0 : linksOf cv fs p0 = some (ScanMarkdownLinks cv content (goDir cv p0)) := by
        rw [linksOf, hread]
        rfl
      have hQfst : ((rest ++ added.map fun l => (l, d0 + 1)).map Prod.fst) =
          rest.map Prod.fst ++ added := by
        rw [List.map_append, map_fst_depth]
      have hsoundQnew : ∀ pd ∈ rest ++ added.map (fun l => (l, d0 + 1)),
          fs.statOk pd.1 = true ∧ ReachesN cv fs root pd.2 pd.1 ∧
            ∀ m, ReachesN cv fs root m pd.1 → pd.2 ≤ m := by
        intro pd hpd
        rcases List.mem_append.mp hpd with hr | ha
        · exact hinv.hsoundQ pd (List.mem_cons_of_mem _ hr)
        · obtain ⟨hp1, hp2⟩ := mem_map_depth ha
          obtain ⟨hl1, hl2, hl3⟩ := hprops pd.1 hp1
          refine ⟨hl3, ?_, ?_⟩
          · rw [hp2]
            exact ReachesN.succ hlinksp0 hl1 hl3 hp0sQ.2.1
          · intro m hm
            rw [hp2]
            by_contra hcon
            have hmd : m ≤ d0 := by omega
            exact hl2 (hinv.hC1 hcnt m pd.1 hm (hboundold m hmd))
      have hpairnew : List.Pairwise (fun a b => a.2 ≤ b.2)
          (rest ++ added.map fun l => (l, d0 + 1)) := by
        rw [List.pairwise_append]
        refine ⟨hinv.hpair.of_cons, ?_, ?_⟩
        · exact List.pairwise_map.mpr (pairwise_of_all (fun a b => Nat.le_refl _) added)
        · intro a ha b hb
          rw [(mem_map_depth hb).2]
          exact hinv.hsand a (List.mem_cons_of_mem _ ha) (p0, d0) rfl
      have hEnew : ((g.count + 1 : Nat) : Int) < mp →
          ∀ v ∈ V ++ added, ¬ v ∈ (rest ++ added.map fun l => (l, d0 + 1)).map Prod.fst →
          ∀ L, linksOf cv fs v = some L → ∀ l ∈ L, fs.statOk l = true → l ∈ V ++ added := by
        intro hc2 v hvV hvnQ L hL l hl hsl
        rcases List.mem_append.mp hvV with hvV | hvadd
        · by_cases hvp : v = p0
          · subst hvp
            rw [hlinksp0] at hL
            injection hL with hLeq
            rw [← hLeq] at hl
            exact hcov hc2 l hl hsl
          · have hvnQ0 : ¬ v ∈ ((((p0, d0) : GoStr × Nat)) :: rest).map Prod.fst := by
              rw [List.map_cons]
              intro hmem
              rcases List.mem_cons.mp hmem with h' | h'
              · exact hvp h'
              · exact hvnQ (by rw [hQfst]; exact List.mem_append_left added h')
            exact List.mem_append_left added (hinv.hE hcnt v hvV hvnQ0 L hL l hl hsl)
        · exact absurd
            (show v ∈ (rest ++ added.map fun l => (l, d0 + 1)).map Prod.fst from by
              rw [hQfst]; exact List.mem_append_right _ hvadd) hvnQ
      have hC1new : ((g.count + 1 : Nat) : Int) < mp → ∀ m p, ReachesN cv fs root m p →
          (∀ h, (rest ++ added.map fun l => (l, d0 + 1)).head? = some h → m ≤ h.2) →
          p ∈ V ++ added := by
        intro hc2
        exact C1_of_inv cv fs root (V ++ added) (rest ++ added.map fun l => (l, d0 + 1)) d0
          (fun m p hm hmd => List.mem_append_left added
            (hinv.hC1 hcnt m p hm (hboundold m hmd)))
          (hEnew hc2)
          (fun pd hpd m hm => (hsoundQnew pd hpd).2.2 m hm)
          (pairwise_head_min hpairnew)
      refine ⟨?_, ?_, ?_, ?_, ?_, ?_, ?_, hpairnew, ?_, hsoundQnew, ?_, hEnew, hC1new⟩
      · dsimp only
        rw [step_graph_count, step_graph_len, hcount0]
      · dsimp only
        rw [step_graph_paths, List.nodup_append]
        refine ⟨hinv.hnodup, List.nodup_singleton p0, ?_⟩
        intro x hx hx2
        rw [List.mem_singleton] at hx2
        rw [hx2] at hx
        exact hp0nN hx
      · dsimp only
        rw [step_graph_count]
        omega
      · dsimp only
        intro pd hpd
        rcases List.mem_append.mp hpd with hr | ha
        · exact List.mem_append_left added (hinv.hQV pd (List.mem_cons_of_mem _ hr))
        · exact List.mem_append_right V (mem_map_depth ha).1
      · dsimp only
        intro n hn
        have hmm := List.mem_map_of_mem (fun n => (n.path, n.depth)) hn
        rw [step_graph_pd] at hmm
        rcases List.mem_append.mp hmm with h | h
        · obtain ⟨n0, hn0, heq⟩ := List.mem_map.mp h
          have h1 : n0.path = n.path := congrArg Prod.fst heq
          rw [← h1]
          exact List.mem_append_left added (hinv.hNV n0 hn0)
        · rw [List.mem_singleton] at h
          have h1 : n.path = p0 := congrArg Prod.fst h
          rw [h1]
          exact List.mem_append_left added hp0V
      · dsimp only
        rw [hQfst, List.nodup_append]
        refine ⟨?_, hadnd, ?_⟩
        · have h : (((p0, d0) : GoStr × Nat) :: rest).map Prod.fst |>.Nodup := hinv.hQdup
          rw [List.map_cons] at h
          exact (List.nodup_cons.mp h).2
        · intro x hx hx2
          obtain ⟨pd, hpdr, hpdx⟩ := List.mem_map.mp hx
          have hxV : x ∈ V := by
            rw [← hpdx]
            exact hinv.hQV pd (List.mem_cons_of_mem _ hpdr)
          exact (hprops x hx2).2.1 hxV
      · dsimp only
        intro pd hpd
        rw [step_graph_paths]
        intro hmem
        rcases List.mem_append.mp hmem with h | h
        · rcases List.mem_append.mp hpd with hr | ha
          · exact hinv.hQN pd (List.mem_cons_of_mem _ hr) h
          · exact (hprops pd.1 (mem_map_depth ha).1).2.1 (hgpathsV pd.1 h)
        · rw [List.mem_singleton] at h
          rcases List.mem_append.mp hpd with hr | ha
          · exact hp0nr (h ▸ List.mem_map_of_mem Prod.fst hr)
          · exact (hprops pd.1 (mem_map_depth ha).1).2.1 (by rw [h]; exact hp0V)
      · dsimp only
        intro pd hpd h hh
        have hub : pd.2 ≤ d0 + 1 := by
          rcases List.mem_append.mp hpd with hr | ha
          · exact hinv.hsand pd (List.mem_cons_of_mem _ hr) (p0, d0) rfl
          · rw [(mem_map_depth ha).2]
        have hlb : d0 ≤ h.2 := by
          have hhm := head?_mem_of hh
          rcases List.mem_append.mp hhm with hr | ha
          · exact List.rel_of_pairwise_cons hinv.hpair hr
          · rw [(mem_map_depth ha).2]
            exact Nat.le_succ d0
        omega
      · dsimp only
        intro n hn
        have hmm := List.mem_map_of_mem (fun n => (n.path, n.depth)) hn
        rw [step_graph_pd] at hmm
        rcases List.mem_append.mp hmm with h | h
        · obtain ⟨n0, hn0, heq⟩ := List.mem_map.mp h
          have h1 : n0.path = n.path := congrArg Prod.fst heq
          have h2 : n0.depth = n.depth := congrArg Prod.snd heq
          rw [← h1, ← h2]
          exact hinv.hsoundN n0 hn0
        · rw [List.mem_singleton] at h
          have h1 : n.path = p0 := congrArg Prod.fst h
          have h2 : n.depth = d0 := congrArg Prod.snd h
          rw [h1, h2]
          exact ⟨hp0sQ.2.1, hp0sQ.2.2⟩

/-- The BFS loop preserves the invariants for any fuel. -/
theorem bfsLoop_inv (cv : OsConv) (fs : GoFS) (rootDir root : GoStr) (mp : Int) :
    ∀ (fuel : Nat) (s : BfsState), BfsInv cv fs root mp s →
      BfsInv cv fs root mp (bfsLoop cv fs rootDir mp fuel s) := by
  intro fuel
  induction fuel with
  | zero => intro s h; exact h
  | succ n ih =>
    intro s h
    rw [bfsLoop]
    by_cases hg : bfsGuard mp s = true
    · rw [if_pos hg]
      exact ih _ (bfsStep_inv cv fs rootDir root mp s h hg)
    · rw [if_neg hg]
      exact h

/-- C6 (amended: the count cap needs a nonnegative `maxPages`, see
`negative_maxPages_count_exceeds`): for `0 ≤ maxPages`, every graph
`BuildGraph` returns has `Count` never exceeding `maxPages` and equal to
the number of node entries; no absolute path is ever added twice — the
node paths are duplicate-free, and `AddNode` on an already-present path
returns the existing node leaving the graph, its count and the node's
fields unchanged; and each node's `Depth` equals its shortest discovery
distance from the root: the node is discoverable in `Depth` link steps
and in no fewer, so a later, longer path never updates it. -/
theorem buildGraph_graph_invariants (cv : OsConv) (fs : GoFS) (rootPath : GoStr)
    (maxPages : Int) (res : BuildResult) (hmp : 0 ≤ maxPages)
    (hres : BuildGraph cv fs rootPath maxPages = .ok res) :
    ((res.graph.count : Int) ≤ maxPages ∧
     res.graph.count = res.graph.nodes.length ∧
     (res.graph.nodes.map GoNode.path).Nodup) ∧
    (∀ (g : GoGraph) (p r : GoStr) (d : Nat) (n0 : GoNode),
      g.nodes.find? (fun n => n.path == p) = some n0 →
      g.AddNode p r d = (g, n0)) ∧
    (∀ n ∈ res.graph.nodes,
      ReachesN cv fs rootPath n.depth n.path ∧
      ∀ m, ReachesN cv fs rootPath m n.path → n.depth ≤ m) := by
  cases hstat : fs.statOk rootPath with
  | false =>
    rw [BuildGraph, hstat] at hres
    simp at hres
  | true =>
    rw [BuildGraph, hstat] at hres
    rw [if_neg (show ¬ ((!true) = true) from by decide)] at hres
    dsimp only at hres
    injection hres with h2
    have hinv := bfsLoop_inv cv fs (goDir cv rootPath) rootPath maxPages
      (buildGraphFuel fs) (initState rootPath)
      (initState_inv cv fs rootPath maxPages hmp hstat)
    refine ⟨⟨?_, ?_, ?_⟩, ?_, ?_⟩
    · rw [← h2]
      exact hinv.hcap
    · rw [← h2]
      exact hinv.hcount
    · rw [← h2]
      exact hinv.hnodup
    · intro g p r d n0 hfind
      rw [GoGraph.AddNode, hfind]
    · rw [← h2]
      intro n hn
      exact hinv.hsoundN n hn

/-- C6 counterexample: with `maxPages = -1` the loop guard is false from
the start, yet the returned graph's count 0 exceeds `maxPages`, so the
unconditional cap conjunct of the claim fails for negative limits. -/
theorem negative_maxPages_count_exceeds :
    ∃ res, BuildGraph unixConv cycleFS (gs "/d/a.md") (-1) = .ok res ∧
      ¬ ((res.graph.count : Int) ≤ -1) := by
  refine ⟨⟨⟨gs "/d/a.md", [], 0⟩, [.truncated (-1) 1], [(gs "/d/a.md", 0)]⟩, ?_, ?_⟩
  · decide
  · decide

/-- Witness for `buildGraph_graph_invariants` on the concrete 3-cycle at
`maxPages = 3`. -/
theorem buildGraph_graph_invariants_witness :
    ∃ res, BuildGraph unixConv cycleFS (gs "/d/a.md") 3 = .ok res ∧
      (res.graph.count : Int) ≤ 3 ∧ res.graph.count = res.graph.nodes.length ∧
      (res.graph.nodes.map GoNode.path).Nodup :=
  ⟨⟨⟨gs "/d/a.md",
     [⟨gs "/d/a.md", gs "a.md", [gs "/d/b.md"], 0⟩,
      ⟨gs "/d/b.md", gs "b.md", [gs "/d/c.md"], 1⟩,
      ⟨gs "/d/c.md", gs "c.md", [gs "/d/a.md"], 2⟩], 3⟩, [], []⟩,
   by decide,
   (buildGraph_graph_invariants unixConv cycleFS (gs "/d/a.md") 3
     ⟨⟨gs "/d/a.md",
       [⟨gs "/d/a.md", gs "a.md", [gs "/d/b.md"], 0⟩,
        ⟨gs "/d/b.md", gs "b.md", [gs "/d/c.md"], 1⟩,
        ⟨gs "/d/c.md", gs "c.md", [gs "/d/a.md"], 2⟩], 3⟩, [], []⟩
     (by decide) (by decide)).1⟩
